import Mathlib

/-!
Verification of the readiness-tracking engine of `FuturesUnordered`
(file `src/stream/futures_unordered.rs`).

The Rust code is shallowly embedded as a state machine over an explicit
heap of nodes.  Machine words (`usize`, width `w`) are modelled as `Nat`
with explicit wrap-around `% 2 ^ w` where the source performs a wrapping
`fetch_add` / `fetch_sub`; the bitwise flag operations (`fetch_or`,
`fetch_and`) are `Nat.lor` / `Nat.land`.  Raw pointers are modelled as
node identifiers (`Nat`), with `Option Nat` for possibly-null pointers;
the permanent stub node has identifier `stubId = 0`.  A process abort or
a failed `assert!` is modelled as `Except.error` carrying the message.
Every operation additionally returns the list of observable events it
performs, in order, so that ordering claims of the specification
("signals the parent task afterwards", "strictly before polling", "only
then drops its shared-head reference") can be stated.
-/

/-- `usize::MAX` for word width `w`. -/
def USIZE_MAX (w : Nat) : Nat := 2 ^ w - 1

/-- `const MAX_REFS: usize = usize::MAX >> 1;` (source line 135). -/
def MAX_REFS (w : Nat) : Nat := USIZE_MAX w >>> 1

/-- `const QUEUED: usize = usize::MAX - (usize::MAX >> 1);` (source line 138). -/
def QUEUED (w : Nat) : Nat := USIZE_MAX w - (USIZE_MAX w >>> 1)

/-- The Rust bitwise complement `!QUEUED` in width `w`. -/
def NOT_QUEUED (w : Nat) : Nat := USIZE_MAX w ^^^ QUEUED w

theorem MAX_REFS_eq (w : Nat) (hw : 0 < w) : MAX_REFS w = 2 ^ (w - 1) - 1 := by
  have h : 2 ^ w = 2 * 2 ^ (w - 1) := by
    rw [← pow_succ']
    congr 1
    omega
  simp only [MAX_REFS, USIZE_MAX, Nat.shiftRight_succ, Nat.shiftRight_zero]
  omega

theorem QUEUED_eq (w : Nat) (hw : 0 < w) : QUEUED w = 2 ^ (w - 1) := by
  have h : 2 ^ w = 2 * 2 ^ (w - 1) := by
    rw [← pow_succ']
    congr 1
    omega
  have h2 : 0 < 2 ^ (w - 1) := Nat.pos_pow_of_pos _ (by omega)
  simp only [QUEUED, USIZE_MAX, Nat.shiftRight_succ, Nat.shiftRight_zero]
  omega

/-- The `QUEUED` flag is numerically `MAX_REFS + 1`. -/
theorem QUEUED_eq_MAX_REFS_succ (w : Nat) (hw : 0 < w) :
    QUEUED w = MAX_REFS w + 1 := by
  rw [QUEUED_eq w hw, MAX_REFS_eq w hw]
  have h2 : 0 < 2 ^ (w - 1) := Nat.pos_pow_of_pos _ (by omega)
  omega

theorem NOT_QUEUED_eq (w : Nat) (hw : 0 < w) : NOT_QUEUED w = 2 ^ (w - 1) - 1 := by
  have hq := QUEUED_eq w hw
  have h : 2 ^ w = 2 * 2 ^ (w - 1) := by
    rw [← pow_succ']
    congr 1
    omega
  have h2 : 0 < 2 ^ (w - 1) := Nat.pos_pow_of_pos _ (by omega)
  apply Nat.eq_of_testBit_eq
  intro i
  rw [NOT_QUEUED, Nat.testBit_xor, hq]
  rcases Nat.lt_trichotomy i (w - 1) with hi | hi | hi
  · have hlt : 2 ^ i < 2 ^ (w - 1) := Nat.pow_lt_pow_right (by omega) hi
    rw [Nat.testBit_two_pow_of_ne (by omega)]
    have hmax : USIZE_MAX w = 2 ^ (w - 1) - 1 + 2 ^ (w - 1) := by
      simp only [USIZE_MAX]; omega
    have ht1 : (USIZE_MAX w).testBit i = true := by
      rw [USIZE_MAX, Nat.testBit_two_pow_sub_one]
      simp only [decide_eq_true_eq]
      omega
    have ht2 : (2 ^ (w - 1) - 1).testBit i = true := by
      rw [Nat.testBit_two_pow_sub_one]
      simp only [decide_eq_true_eq]
      omega
    rw [ht1, ht2]
    rfl
  · subst hi
    have ht1 : (USIZE_MAX w).testBit (w - 1) = true := by
      rw [USIZE_MAX, Nat.testBit_two_pow_sub_one]
      simp only [decide_eq_true_eq]
      omega
    have ht2 : (2 ^ (w - 1) - 1).testBit (w - 1) = false := by
      rw [Nat.testBit_two_pow_sub_one]
      simp only [decide_eq_false_iff_not]
      omega
    rw [ht1, ht2, Nat.testBit_two_pow_self]
    rfl
  · have ht1 : (USIZE_MAX w).testBit i = false := by
      rw [USIZE_MAX, Nat.testBit_two_pow_sub_one]
      simp only [decide_eq_false_iff_not]
      omega
    have ht2 : (2 ^ (w - 1) - 1).testBit i = false := by
      rw [Nat.testBit_two_pow_sub_one]
      simp only [decide_eq_false_iff_not]
      omega
    rw [ht1, ht2, Nat.testBit_two_pow_of_ne (by omega)]
    rfl

/-! ## Computations

A managed computation (`T: Future` in the source).  Polling it yields
`NotReady` (stepping to the continuation), a value, or an error.  The
`nd` flag on a constructor models an environment notification for this
node being delivered *during* that call to the computation `poll`
(between the consumer clearing `QUEUED` and the consumer acting on the
poll result); the source itself never inspects the computation. -/

inductive Comp (V E : Type) where
  | ready (nd : Bool) (v : V)
  | err (nd : Bool) (e : E)
  | pend (nd : Bool) (k : Comp V E)
deriving DecidableEq

/-- Outcome of polling one computation (`Poll<T::Item, T::Error>`). -/
inductive POut (V E : Type) where
  | ready (v : V)
  | notReady
  | err (e : E)
deriving DecidableEq

/-- Poll a computation: result, computation as left in the slot, and the
during-poll notification flag. -/
def compPoll {V E : Type} : Comp V E → POut V E × Comp V E × Bool
  | .ready nd v => (.ready v, .ready nd v, nd)
  | .err nd e => (.err e, .err nd e, nd)
  | .pend nd k => (.notReady, k, nd)

/-- Result of `FuturesUnordered::poll` (`Poll<Option<T::Item>, T::Error>`). -/
inductive PRes (V E : Type) where
  | ready (v : Option V)
  | notReady
  | err (e : E)
deriving DecidableEq

/-! ## Nodes and the heap -/

/-- `struct Node<T>` (source lines 111-126). -/
structure Node (F : Type) where
  future : Option F
  next_all : Option Nat
  prev_all : Option Nat
  next_readiness : Option Nat
  state : Nat
deriving DecidableEq

instance {F : Type} : Inhabited (Node F) :=
  ⟨{ future := none, next_all := none, prev_all := none,
     next_readiness := none, state := 0 }⟩

/-- The heap of allocated nodes, keyed by node identifier. -/
abbrev Heap (F : Type) := List (Nat × Node F)

/-- Look up a node by identifier. -/
def hfind {F : Type} : Heap F → Nat → Option (Node F)
  | [], _ => none
  | (j, nd) :: t, i => if j = i then some nd else hfind t i

/-- Overwrite the node stored at an identifier (no-op when absent). -/
def hset {F : Type} : Heap F → Nat → Node F → Heap F
  | [], _, _ => []
  | (j, nd) :: t, i, nd' => if j = i then (j, nd') :: t else (j, nd) :: hset t i nd'

/-- Deallocate a node. -/
def hremove {F : Type} : Heap F → Nat → Heap F
  | [], _ => []
  | (j, nd) :: t, i => if j = i then hremove t i else (j, nd) :: hremove t i

/-- Dereference a node identifier (meaningful only on allocated nodes). -/
def getN {F : Type} (h : Heap F) (i : Nat) : Node F :=
  (hfind h i).getD default

theorem hfind_hset_self {F : Type} {h : Heap F} {i : Nat} {x nd : Node F}
    (hx : hfind h i = some x) : hfind (hset h i nd) i = some nd := by
  induction h with
  | nil => simp [hfind] at hx
  | cons p t ih =>
    obtain ⟨j, y⟩ := p
    by_cases hj : j = i
    · subst hj
      simp [hfind, hset]
    · simp only [hfind, hset, if_neg hj] at hx ⊢
      exact ih hx

theorem hfind_hset_ne {F : Type} {h : Heap F} {i j : Nat} {nd : Node F}
    (hij : j ≠ i) : hfind (hset h i nd) j = hfind h j := by
  induction h with
  | nil => simp [hset]
  | cons p t ih =>
    obtain ⟨k, y⟩ := p
    by_cases hk : k = i
    · subst hk
      simp only [hset, if_pos rfl, hfind]
      rw [if_neg fun hh => hij hh.symm, if_neg fun hh => hij hh.symm]
    · simp only [hset, if_neg hk, hfind]
      by_cases hkj : k = j
      · simp [hkj]
      · simp only [if_neg hkj]
        exact ih

theorem hset_of_missing {F : Type} {h : Heap F} {i : Nat} {nd : Node F}
    (hx : hfind h i = none) : hset h i nd = h := by
  induction h with
  | nil => rfl
  | cons p t ih =>
    obtain ⟨j, y⟩ := p
    by_cases hj : j = i
    · subst hj
      simp [hfind] at hx
    · simp only [hfind, if_neg hj] at hx
      simp [hset, if_neg hj, ih hx]

theorem hfind_hremove {F : Type} {h : Heap F} {i j : Nat} :
    hfind (hremove h i) j = if j = i then none else hfind h j := by
  induction h with
  | nil => simp [hremove, hfind]
  | cons p t ih =>
    obtain ⟨k, y⟩ := p
    by_cases hk : k = i
    · simp only [hremove, if_pos hk, ih]
      by_cases hj : j = i
      · simp [hj]
      · simp only [if_neg hj, hfind]
        rw [if_neg fun hh => hj (hk ▸ hh.symm)]
    · simp only [hremove, if_neg hk, hfind]
      by_cases hkj : k = j
      · have hji : ¬ j = i := fun hh => hk (hkj.trans hh)
        simp [hfind, if_pos hkj, hji]
      · simp only [if_neg hkj, ih]

theorem hfind_hset_isSome {F : Type} {h : Heap F} {i j : Nat} {nd : Node F} :
    (hfind (hset h i nd) j).isSome = (hfind h j).isSome := by
  by_cases hij : j = i
  · subst hij
    cases hx : hfind h j with
    | none => rw [hset_of_missing hx, hx]
    | some x => simp [hfind_hset_self hx, hx]
  · rw [hfind_hset_ne hij]

/-! ## Collection state

`FuturesUnordered` (source lines 42-48) together with its shared `Inner`
(lines 100-109).  `head_readiness` and `ref_count` live in `Inner`;
`inner_alive` records whether the shared head has been deallocated by
`drop_raw`.  The permanent stub node is allocated at identifier `stubId`
and `nextId` is the allocator for fresh node identifiers. -/

structure St (V E : Type) where
  heap : Heap (Comp V E)
  nextId : Nat
  len : Nat
  head_all : Option Nat
  tail_readiness : Nat
  head_readiness : Nat
  ref_count : Nat
  inner_alive : Bool
deriving DecidableEq

/-- Identifier of the stub node. -/
def stubId : Nat := 0

/-- `FuturesUnordered::new` (source lines 147-177). -/
def newFU (w : Nat) (V E : Type) : St V E :=
  { heap := [(stubId,
      { future := none, next_all := none, prev_all := none,
        next_readiness := none, state := QUEUED w ||| 1 })]
    nextId := 1
    len := 0
    head_all := none
    tail_readiness := stubId
    head_readiness := stubId
    ref_count := 1
    inner_alive := true }

/-- Observable events, in program order. -/
inductive Ev where
  | enq (n : Nat)
  | signalParent
  | selfNotify
  | parkParent
  | setQueued (n prev : Nat)
  | clearQueued (n prev : Nat)
  | pollComp (n : Nat)
  | dropComp (n : Nat)
  | unlinkN (n : Nat)
  | incRef (n old : Nat)
  | decRef (n old : Nat)
  | freeNode (n : Nat)
  | dropInnerRef (old : Nat)
  | freeInner
deriving DecidableEq

/-- Message of the abort in `release` (source line 588). -/
def dropMsg : String := "future should already be dropped"

/-- Message of the abort in `ref_inc` and `clone_raw` (lines 523, 542). -/
def overflowMsg : String := "refcount overflow"

/-- Message of the failed `assert!` on owner links (lines 358-359). -/
def assertLinksMsg : String := "assertion failed: owner links not null"

/-- Message of the failed `assert!(prev & QUEUED == QUEUED)` (line 369). -/
def assertFlagMsg : String := "assertion failed: queued flag was not set"

/-- Message reporting exhaustion of the drop-loop fuel (a modelling
artifact; the source loop is unbounded). -/
def fuelMsg : String := "drop loop out of fuel"

/-- Store a node back into the heap of a collection state. -/
def setN {V E : Type} (st : St V E) (i : Nat) (nd : Node (Comp V E)) : St V E :=
  { st with heap := hset st.heap i nd }

/-- `Inner::enqueue` (source lines 480-491): clear the next link of the
node, swap it into the queue head, and link the previous head to it. -/
def enqueue {V E : Type} (st : St V E) (n : Nat) : St V E × List Ev :=
  let st1 := setN st n { getN st.heap n with next_readiness := none }
  let prev := st1.head_readiness
  let st2 := { st1 with head_readiness := n }
  let st3 := setN st2 prev { getN st2.heap prev with next_readiness := some n }
  (st3, [Ev.enq n])

/-- `enum Dequeue` (source lines 128-132). -/
inductive Dq where
  | Data (n : Nat)
  | Empty
  | Inconsistent
deriving DecidableEq

/-- Shared tail of `FuturesUnordered::dequeue` after the stub check
(source lines 252-272). -/
def dequeueRest {V E : Type} (st : St V E) (tail : Nat) (next : Option Nat) :
    St V E × Dq :=
  match next with
  | some nx => ({ st with tail_readiness := nx }, Dq.Data tail)
  | none =>
    if st.head_readiness ≠ tail then (st, Dq.Inconsistent)
    else
      let st1 := (enqueue st stubId).1
      match (getN st1.heap tail).next_readiness with
      | some nx => ({ st1 with tail_readiness := nx }, Dq.Data tail)
      | none => (st1, Dq.Inconsistent)

/-- `FuturesUnordered::dequeue` (source lines 235-274). -/
def dequeue {V E : Type} (st : St V E) : St V E × Dq :=
  let tail := st.tail_readiness
  let next := (getN st.heap tail).next_readiness
  if tail = stubId then
    match next with
    | none => (st, Dq.Empty)
    | some nx =>
      let st1 := { st with tail_readiness := nx }
      dequeueRest st1 nx (getN st1.heap nx).next_readiness
  else
    dequeueRest st tail next

/-- `Notify::notify` (source lines 495-513). -/
def notify {V E : Type} (w : Nat) (st : St V E) (n : Nat) : St V E × List Ev :=
  let prev := (getN st.heap n).state
  let st1 := setN st n { getN st.heap n with state := prev ||| QUEUED w }
  if prev &&& QUEUED w = 0 then
    let p := enqueue st1 n
    (p.1, Ev.setQueued n prev :: p.2 ++ [Ev.signalParent])
  else
    (st1, [Ev.setQueued n prev])

/-- `Notify::ref_inc` (source lines 515-526): wrapping `fetch_add(1)`,
then abort when the pre-increment state word exceeds `MAX_REFS`. -/
def ref_inc {V E : Type} (w : Nat) (st : St V E) (n : Nat) :
    Except String (St V E × List Ev) :=
  let old := (getN st.heap n).state
  let st1 := setN st n { getN st.heap n with state := (old + 1) % 2 ^ w }
  if old > MAX_REFS w then Except.error overflowMsg
  else Except.ok (st1, [Ev.incRef n old])

/-- `release` (source lines 578-592): wrapping `fetch_sub(1)`; return
unless the pre-decrement count (flag masked out) was one; abort when the
computation slot is still occupied; otherwise free the node. -/
def release {V E : Type} (w : Nat) (st : St V E) (n : Nat) :
    Except String (St V E × List Ev) :=
  let old := (getN st.heap n).state
  let st1 := setN st n
    { getN st.heap n with state := (old + (USIZE_MAX w)) % 2 ^ w }
  if old &&& NOT_QUEUED w ≠ 1 then Except.ok (st1, [Ev.decRef n old])
  else if (getN st1.heap n).future.isSome then Except.error dropMsg
  else Except.ok ({ st1 with heap := hremove st1.heap n },
                  [Ev.decRef n old, Ev.freeNode n])

/-- `FuturesUnordered::unlink` (source lines 298-313). -/
def unlink {V E : Type} (st : St V E) (n : Nat) : St V E × List Ev :=
  let node := getN st.heap n
  let next := node.next_all
  let prev := node.prev_all
  let st1 := setN st n { node with next_all := none, prev_all := none }
  let st2 :=
    match next with
    | some nx => setN st1 nx { getN st1.heap nx with prev_all := prev }
    | none => st1
  let st3 :=
    match prev with
    | some pv => setN st2 pv { getN st2.heap pv with next_all := next }
    | none => { st2 with head_all := next }
  (st3, [Ev.unlinkN n])

/-- `FuturesUnordered::release_node` (source lines 276-294):
(a) `fetch_or(QUEUED)`, (b) take and drop the computation,
(c) unlink from the owner set, (d) `release` only when the `QUEUED` bit
was clear before (a). -/
def release_node {V E : Type} (w : Nat) (st : St V E) (n : Nat) :
    Except String (St V E × List Ev) :=
  let prev := (getN st.heap n).state
  let st1 := setN st n { getN st.heap n with state := prev ||| QUEUED w }
  let st2 := setN st1 n { getN st1.heap n with future := none }
  let p := unlink st2 n
  if prev &&& QUEUED w = 0 then
    match release w p.1 n with
    | Except.ok q =>
        Except.ok (q.1, Ev.setQueued n prev :: Ev.dropComp n :: (p.2 ++ q.2))
    | Except.error m => Except.error m
  else
    Except.ok (p.1, Ev.setQueued n prev :: Ev.dropComp n :: p.2)

/-- `FuturesUnordered::push` (source lines 199-231). -/
def push {V E : Type} (w : Nat) (st : St V E) (c : Comp V E) : St V E × List Ev :=
  let p := st.nextId
  let node : Node (Comp V E) :=
    { future := some c, next_all := st.head_all, prev_all := none,
      next_readiness := none, state := QUEUED w ||| 1 }
  let st1 : St V E := { st with heap := (p, node) :: st.heap, nextId := p + 1 }
  let st2 :=
    match st.head_all with
    | some hd => setN st1 hd { getN st1.heap hd with prev_all := some p }
    | none => st1
  let st3 := { st2 with head_all := some p }
  let q := enqueue st3 p
  ({ q.1 with len := q.1.len + 1 }, q.2)

/-- One iteration of the loop in `<FuturesUnordered as Stream>::poll`
(source lines 333-409).  The third component is `none` when the source
loop executes `continue`, and `some r` when it returns `r`. -/
def pollIter {V E : Type} (w : Nat) (st : St V E) :
    Except String (St V E × List Ev × Option (PRes V E)) :=
  match dequeue st with
  | (st1, Dq.Empty) =>
    if st1.len = 0 then Except.ok (st1, [], some (PRes.ready none))
    else Except.ok (st1, [], some PRes.notReady)
  | (st1, Dq.Inconsistent) =>
    Except.ok (st1, [Ev.selfNotify], some PRes.notReady)
  | (st1, Dq.Data n) =>
    let node := getN st1.heap n
    match node.future with
    | none =>
      if node.next_all = none ∧ node.prev_all = none then
        match release w st1 n with
        | Except.ok q => Except.ok (q.1, q.2, none)
        | Except.error m => Except.error m
      else Except.error assertLinksMsg
    | some c =>
      let prev := node.state
      let st2 := setN st1 n { node with state := prev &&& NOT_QUEUED w }
      if prev &&& QUEUED w = QUEUED w then
        let r := compPoll c
        let st3 := setN st2 n { getN st2.heap n with future := some r.2.1 }
        let p := if r.2.2 then notify w st3 n else (st3, [])
        let evs := Ev.clearQueued n prev :: Ev.pollComp n :: p.2
        match r.1 with
        | POut.notReady => Except.ok (p.1, evs, none)
        | POut.ready v =>
          let st5 : St V E := { p.1 with len := p.1.len - 1 }
          match release_node w st5 n with
          | Except.ok q =>
              Except.ok (q.1, evs ++ q.2, some (PRes.ready (some v)))
          | Except.error m => Except.error m
        | POut.err e =>
          let st5 : St V E := { p.1 with len := p.1.len - 1 }
          match release_node w st5 n with
          | Except.ok q => Except.ok (q.1, evs ++ q.2, some (PRes.err e))
          | Except.error m => Except.error m
      else Except.error assertFlagMsg

/-- The loop of `poll`, with fuel; `none` in the third component means
the fuel ran out while the source loop would have continued. -/
def pollLoop {V E : Type} (w : Nat) :
    Nat → St V E → Except String (St V E × List Ev × Option (PRes V E))
  | 0, st => Except.ok (st, [], none)
  | fuel + 1, st =>
    match pollIter w st with
    | Except.ok (st1, evs, some r) => Except.ok (st1, evs, some r)
    | Except.ok (st1, evs, none) =>
      match pollLoop w fuel st1 with
      | Except.ok (st2, evs2, r) => Except.ok (st2, evs ++ evs2, r)
      | Except.error m => Except.error m
    | Except.error m => Except.error m

/-- `<FuturesUnordered as Stream>::poll` (source lines 326-410):
register the ambient task as parent, then run the loop. -/
def poll {V E : Type} (w fuel : Nat) (st : St V E) :
    Except String (St V E × List Ev × Option (PRes V E)) :=
  match pollLoop w fuel st with
  | Except.ok (st1, evs, r) => Except.ok (st1, Ev.parkParent :: evs, r)
  | Except.error m => Except.error m

/-- `UnsafeNotify::drop_raw` for `Inner` (source lines 548-554). -/
def drop_raw {V E : Type} (w : Nat) (st : St V E) : St V E × List Ev :=
  let old := st.ref_count
  let st1 := { st with ref_count := (old + (USIZE_MAX w)) % 2 ^ w }
  if old ≠ 1 then (st1, [Ev.dropInnerRef old])
  else ({ st1 with inner_alive := false }, [Ev.dropInnerRef old, Ev.freeInner])

/-- The `while` loop of `Drop for FuturesUnordered` (source lines
430-433), with fuel. -/
def dropAll {V E : Type} (w : Nat) :
    Nat → St V E → Except String (St V E × List Ev)
  | 0, st =>
    match st.head_all with
    | none => Except.ok (st, [])
    | some _ => Except.error fuelMsg
  | fuel + 1, st =>
    match st.head_all with
    | none => Except.ok (st, [])
    | some hd =>
      match release_node w st hd with
      | Except.ok (st1, evs) =>
        match dropAll w fuel st1 with
        | Except.ok (st2, evs2) => Except.ok (st2, evs ++ evs2)
        | Except.error m => Except.error m
      | Except.error m => Except.error m

/-- `Drop for FuturesUnordered` (source lines 419-438) together with the
drop glue of its `inner : MyInner` field: release every owner-set node,
then call `drop_raw` on the shared head twice - once explicitly on
source line 435, and once more when the `inner` field itself is dropped
(`Drop for MyInner`, source lines 470-476). -/
def dropFU {V E : Type} (w fuel : Nat) (st : St V E) :
    Except String (St V E × List Ev) :=
  match dropAll w fuel st with
  | Except.ok (st1, evs) =>
    let p := drop_raw w st1
    let p2 := drop_raw w p.1
    Except.ok (p2.1, evs ++ p.2 ++ p2.2)
  | Except.error m => Except.error m

/-! ## Consumer-side executions -/

/-- Operations of a single-consumer execution: the consumer submits
computations, polls, and finally destroys the collection.  Notifications
during a poll are carried by the computations themselves. -/
inductive Op (V E : Type) where
  | push (c : Comp V E)
  | poll (fuel : Nat)
  | destroy (fuel : Nat)
deriving DecidableEq

/-- Run one consumer operation. -/
def runOp {V E : Type} (w : Nat) (st : St V E) : Op V E → Except String (St V E)
  | Op.push c => Except.ok (push w st c).1
  | Op.poll fuel =>
    match poll w fuel st with
    | Except.ok (st1, _, _) => Except.ok st1
    | Except.error m => Except.error m
  | Op.destroy fuel =>
    match dropFU w fuel st with
    | Except.ok (st1, _) => Except.ok st1
    | Except.error m => Except.error m

/-- Run a consumer execution from a freshly created collection. -/
def run {V E : Type} (w : Nat) (ops : List (Op V E)) : Except String (St V E) :=
  ops.foldlM (runOp w) (newFU w V E)

/-- Submit-and-poll operations only (no destruction). -/
inductive SPOp (V E : Type) where
  | push (c : Comp V E)
  | poll (fuel : Nat)
deriving DecidableEq

/-- Run one submit-or-poll operation. -/
def runSPOp {V E : Type} (w : Nat) (st : St V E) : SPOp V E → Except String (St V E)
  | SPOp.push c => Except.ok (push w st c).1
  | SPOp.poll fuel =>
    match poll w fuel st with
    | Except.ok (st1, _, _) => Except.ok st1
    | Except.error m => Except.error m

/-- Run a submit/poll execution from a freshly created collection. -/
def runSP {V E : Type} (w : Nat) (ops : List (SPOp V E)) : Except String (St V E) :=
  ops.foldlM (runSPOp w) (newFU w V E)

/-- The owner set as reached from `head_all` along `next_all`, with fuel. -/
def ownerListAux {F : Type} (h : Heap F) : Nat → Option Nat → List Nat
  | 0, _ => []
  | _ + 1, none => []
  | fuel + 1, some i => i :: ownerListAux h fuel (getN h i).next_all

/-- The owner-set nodes reachable from `head_all` via the `next_all`
links (the heap size bounds the length of any duplicate-free chain). -/
def ownerList {V E : Type} (st : St V E) : List Nat :=
  ownerListAux st.heap (st.heap.length + 1) st.head_all

/-! ## Flag arithmetic -/

theorem getN_hset_self {F : Type} {h : Heap F} {i : Nat} {nd : Node F}
    (hx : (hfind h i).isSome) : getN (hset h i nd) i = nd := by
  obtain ⟨x, hx⟩ := Option.isSome_iff_exists.mp hx
  simp [getN, hfind_hset_self hx]

theorem getN_hset_ne {F : Type} {h : Heap F} {i j : Nat} {nd : Node F}
    (hij : j ≠ i) : getN (hset h i nd) j = getN h j := by
  simp [getN, hfind_hset_ne hij]

theorem flag_dichotomy (w : Nat) (hw : 0 < w) (s : Nat) :
    s &&& QUEUED w = 0 ∨ s &&& QUEUED w = QUEUED w := by
  rw [QUEUED_eq w hw, Nat.and_two_pow]
  cases s.testBit (w - 1) <;> simp

theorem flag_of_or (w : Nat) (hw : 0 < w) (s : Nat) :
    (s ||| QUEUED w) &&& QUEUED w = QUEUED w := by
  rw [QUEUED_eq w hw, Nat.and_two_pow]
  have h : (s ||| 2 ^ (w - 1)).testBit (w - 1) = true := by
    simp [Nat.testBit_or, Nat.testBit_two_pow_self]
  rw [h]
  simp

theorem flag_of_and_not (w : Nat) (hw : 0 < w) (s : Nat) :
    (s &&& NOT_QUEUED w) &&& QUEUED w = 0 := by
  rw [NOT_QUEUED_eq w hw, QUEUED_eq w hw, Nat.and_assoc]
  have h : (2 ^ (w - 1) - 1) &&& 2 ^ (w - 1) = 0 := by
    apply Nat.eq_of_testBit_eq
    intro i
    simp only [Nat.testBit_and, Nat.testBit_two_pow_sub_one, Nat.testBit_two_pow,
      Nat.zero_testBit]
    by_cases hi : i < w - 1
    · have hne : w - 1 ≠ i := by omega
      simp [hi, hne]
    · simp [hi]
  rw [h]
  simp

theorem rc_of_or (w : Nat) (hw : 0 < w) (s : Nat) :
    (s ||| QUEUED w) &&& NOT_QUEUED w = s &&& NOT_QUEUED w := by
  rw [NOT_QUEUED_eq w hw, QUEUED_eq w hw]
  apply Nat.eq_of_testBit_eq
  intro i
  simp only [Nat.testBit_and, Nat.testBit_or, Nat.testBit_two_pow_sub_one]
  by_cases hi : i < w - 1
  · have hne : w - 1 ≠ i := by omega
    simp [hi, Nat.testBit_two_pow_of_ne hne]
  · simp [hi]

theorem rc_of_and_not (w : Nat) (hw : 0 < w) (s : Nat) :
    (s &&& NOT_QUEUED w) &&& NOT_QUEUED w = s &&& NOT_QUEUED w := by
  rw [Nat.and_assoc, Nat.and_self]

theorem ge_of_flag (w : Nat) (hw : 0 < w) (s : Nat)
    (hs : s &&& QUEUED w ≠ 0) : MAX_REFS w < s := by
  rcases flag_dichotomy w hw s with h | h
  · exact absurd h hs
  · rw [QUEUED_eq w hw, Nat.and_two_pow] at h
    have h2 : 0 < 2 ^ (w - 1) := Nat.pos_pow_of_pos _ (by omega)
    have hbit : s.testBit (w - 1) = true := by
      cases hb : s.testBit (w - 1) with
      | false => rw [hb] at h; simp at h; omega
      | true => rfl
    have := Nat.testBit_implies_ge hbit
    rw [MAX_REFS_eq w hw]
    have h2 : 0 < 2 ^ (w - 1) := Nat.pos_pow_of_pos _ (by omega)
    omega

theorem flag_ne_zero_iff (w : Nat) (hw : 0 < w) (s : Nat) :
    s &&& QUEUED w ≠ 0 ↔ s &&& QUEUED w = QUEUED w := by
  have hq : 0 < QUEUED w := by
    rw [QUEUED_eq w hw]
    exact Nat.pos_pow_of_pos _ (by omega)
  rcases flag_dichotomy w hw s with h | h <;> simp [h] <;> omega

theorem rc_of_queued_or_one (w : Nat) (hw : 1 < w) :
    (QUEUED w ||| 1) &&& NOT_QUEUED w = 1 := by
  rw [Nat.lor_comm, rc_of_or w (by omega) 1, NOT_QUEUED_eq w (by omega)]
  have h2 : 2 ≤ 2 ^ (w - 1) := by
    calc 2 = 2 ^ 1 := rfl
    _ ≤ 2 ^ (w - 1) := Nat.pow_le_pow_right (by omega) (by omega)
  apply Nat.eq_of_testBit_eq
  intro i
  simp only [Nat.testBit_and, Nat.testBit_two_pow_sub_one]
  match i with
  | 0 => simp [Nat.testBit_zero]; omega
  | j + 1 =>
    have : (1 : Nat).testBit (j + 1) = false := by
      apply Nat.testBit_lt_two_pow
      calc (1 : Nat) < 2 ^ 1 := by omega
      _ ≤ 2 ^ (j + 1) := Nat.pow_le_pow_right (by omega) (by omega)
    simp [this]

theorem flag_of_queued_or_one (w : Nat) (hw : 0 < w) :
    (QUEUED w ||| 1) &&& QUEUED w = QUEUED w := by
  rw [Nat.lor_comm]
  exact flag_of_or w hw 1

/-! ## Claims. -/

deriving instance DecidableEq for Except

/-- The stub node as allocated by `newFU` at width 4 (used by concrete
witness states). -/
def stubNode4 : Node (Comp Nat Nat) :=
  { future := none, next_all := none, prev_all := none,
    next_readiness := none, state := QUEUED 4 ||| 1 }

/-- A concrete queued node: reference count 1, `QUEUED` bit set. -/
def stQ : St Nat Nat :=
  { heap := [(stubId, stubNode4),
             (1, { future := some (Comp.pend false (Comp.ready false 0)),
                   next_all := none, prev_all := none,
                   next_readiness := none, state := QUEUED 4 ||| 1 })]
    nextId := 2
    len := 1
    head_all := some 1
    tail_readiness := stubId
    head_readiness := stubId
    ref_count := 1
    inner_alive := true }

/-- C10: for every node whose QUEUED flag is set in its state word,
`ref_inc` aborts the process regardless of the actual reference count:
the overflow check compares the entire pre-increment state word against
`MAX_REFS`, and the `QUEUED` bit alone is numerically `MAX_REFS + 1`. -/
theorem C10_ref_inc_aborts_when_queued {V E : Type} (w : Nat) (hw : 0 < w)
    (st : St V E) (n : Nat)
    (hq : (getN st.heap n).state &&& QUEUED w ≠ 0) :
    ref_inc w st n = Except.error overflowMsg ∧ QUEUED w = MAX_REFS w + 1 := by
  refine ⟨?_, QUEUED_eq_MAX_REFS_succ w hw⟩
  have hgt : MAX_REFS w < (getN st.heap n).state := ge_of_flag w hw _ hq
  simp [ref_inc, hgt]

/-- Witness for C10 at a concrete queued node with reference count 1. -/
theorem C10_witness :
    ref_inc 4 stQ 1 = Except.error overflowMsg ∧ QUEUED 4 = MAX_REFS 4 + 1 :=
  C10_ref_inc_aborts_when_queued 4 (by decide) stQ 1 (by decide)

/-- C5 (refuting the claimed abort condition): at a node whose reference
count is 1 — not exceeding `MAX_REFS` — but whose `QUEUED` bit is set,
`ref_inc` aborts with the refcount-overflow message, because the check
`old_size > MAX_REFS` (source line 522) is applied to the whole fused
state word rather than to the reference count. -/
theorem C5_ref_inc_aborts_with_refcount_one :
    (getN stQ.heap 1).state &&& NOT_QUEUED 4 = 1 ∧
    (getN stQ.heap 1).state &&& NOT_QUEUED 4 ≤ MAX_REFS 4 ∧
    ref_inc 4 stQ 1 = Except.error overflowMsg := by decide

/-- C2: `poll` maps the dequeue outcome to its result: `Empty` with
`len = 0` yields `Ready(None)`; `Empty` with `len > 0` yields `NotReady`;
`Inconsistent` requests self-notification via the ambient task and yields
`NotReady` (no error, no further loop iteration); and the first `poll` of
a freshly created collection returns `Ready(None)`. -/
theorem C2_poll_dispatch (V E : Type) (w : Nat) :
    (∀ st stE : St V E, dequeue st = (stE, Dq.Empty) → stE.len = 0 →
      pollIter w st = Except.ok (stE, [], some (PRes.ready none))) ∧
    (∀ st stE : St V E, dequeue st = (stE, Dq.Empty) → 0 < stE.len →
      pollIter w st = Except.ok (stE, [], some PRes.notReady)) ∧
    (∀ st stI : St V E, dequeue st = (stI, Dq.Inconsistent) →
      pollIter w st = Except.ok (stI, [Ev.selfNotify], some PRes.notReady)) ∧
    poll w 1 (newFU w V E) =
      Except.ok (newFU w V E, [Ev.parkParent], some (PRes.ready none)) := by
  refine ⟨?_, ?_, ?_, ?_⟩
  · intro st stE h hlen
    simp [pollIter, h, hlen]
  · intro st stE h hlen
    have hne : ¬ stE.len = 0 := by omega
    simp [pollIter, h, hne]
  · intro st stI h
    simp [pollIter, h]
  · rfl

/-- The fresh collection with `len` artificially set to 1 (an `Empty`
dequeue with nonzero length). -/
def stL1 : St Nat Nat := { newFU 4 Nat Nat with len := 1 }

/-- A state whose readiness queue is mid-enqueue: the consumer tail is a
node with a null next link while the producer head points elsewhere. -/
def stInc : St Nat Nat :=
  { heap := [(stubId, stubNode4),
             (1, { future := some (Comp.pend false (Comp.ready false 0)),
                   next_all := none, prev_all := none,
                   next_readiness := none, state := 1 })]
    nextId := 2
    len := 1
    head_all := some 1
    tail_readiness := 1
    head_readiness := stubId
    ref_count := 1
    inner_alive := true }

/-- Witness for C2 on concrete states for each dequeue outcome. -/
theorem C2_witness :
    pollIter 4 (newFU 4 Nat Nat) =
      Except.ok (newFU 4 Nat Nat, [], some (PRes.ready none)) ∧
    pollIter 4 stL1 = Except.ok (stL1, [], some PRes.notReady) ∧
    pollIter 4 stInc = Except.ok (stInc, [Ev.selfNotify], some PRes.notReady) :=
  have h := C2_poll_dispatch Nat Nat 4
  ⟨h.1 _ _ (by decide) (by decide),
   h.2.1 _ _ (by decide) (by decide),
   h.2.2.1 _ _ (by decide)⟩


/-! ## Primitive operation lemmas -/

theorem hset_hset {F : Type} (h : Heap F) (i : Nat) (a b : Node F) :
    hset (hset h i a) i b = hset h i b := by
  induction h with
  | nil => rfl
  | cons p t ih =>
    obtain ⟨j, y⟩ := p
    by_cases hj : j = i
    · simp [hset, hj]
    · simp [hset, hj, ih]

theorem hremove_hset {F : Type} (h : Heap F) (i : Nat) (a : Node F) :
    hremove (hset h i a) i = hremove h i := by
  induction h with
  | nil => rfl
  | cons p t ih =>
    obtain ⟨j, y⟩ := p
    by_cases hj : j = i
    · simp [hset, hremove, hj]
    · simp [hset, hremove, hj, ih]

theorem enqueue_fields {V E : Type} (st : St V E) (n : Nat) :
    (enqueue st n).1.tail_readiness = st.tail_readiness ∧
    (enqueue st n).1.head_all = st.head_all ∧
    (enqueue st n).1.len = st.len ∧
    (enqueue st n).1.nextId = st.nextId ∧
    (enqueue st n).1.ref_count = st.ref_count ∧
    (enqueue st n).1.inner_alive = st.inner_alive :=
  ⟨rfl, rfl, rfl, rfl, rfl, rfl⟩

theorem enqueue_spec {V E : Type} (st : St V E) (n : Nat)
    (hn : (hfind st.heap n).isSome)
    (hprev : (hfind st.heap st.head_readiness).isSome)
    (hne : st.head_readiness ≠ n) :
    (enqueue st n).1.head_readiness = n ∧
    getN (enqueue st n).1.heap n
      = { getN st.heap n with next_readiness := none } ∧
    getN (enqueue st n).1.heap st.head_readiness
      = { getN st.heap st.head_readiness with next_readiness := some n } ∧
    (∀ k, k ≠ n → k ≠ st.head_readiness →
      hfind (enqueue st n).1.heap k = hfind st.heap k) ∧
    (∀ k, (hfind (enqueue st n).1.heap k).isSome = (hfind st.heap k).isSome) ∧
    (enqueue st n).2 = [Ev.enq n] := by
  refine ⟨rfl, ?_, ?_, ?_, ?_, rfl⟩
  · show getN (hset (hset st.heap n _) st.head_readiness _) n = _
    rw [getN_hset_ne (fun hh => hne hh.symm)]
    exact getN_hset_self hn
  · have hprev1 : (hfind (hset st.heap n
        { getN st.heap n with next_readiness := none }) st.head_readiness).isSome := by
      rw [hfind_hset_isSome]; exact hprev
    show getN (hset (hset st.heap n { getN st.heap n with next_readiness := none })
        st.head_readiness
        { getN (hset st.heap n { getN st.heap n with next_readiness := none })
            st.head_readiness with next_readiness := some n })
        st.head_readiness = _
    rw [getN_hset_self hprev1, getN_hset_ne hne]
  · intro k hk1 hk2
    show hfind (hset (hset st.heap n _) st.head_readiness _) k = _
    rw [hfind_hset_ne hk2, hfind_hset_ne hk1]
  · intro k
    show (hfind (hset (hset st.heap n _) st.head_readiness _) k).isSome = _
    rw [hfind_hset_isSome, hfind_hset_isSome]

@[simp] theorem setN_heap {V E : Type} (st : St V E) (i : Nat) (nd : Node (Comp V E)) :
    (setN st i nd).heap = hset st.heap i nd := rfl

@[simp] theorem setN_nextId {V E : Type} (st : St V E) (i : Nat) (nd : Node (Comp V E)) :
    (setN st i nd).nextId = st.nextId := rfl

@[simp] theorem setN_len {V E : Type} (st : St V E) (i : Nat) (nd : Node (Comp V E)) :
    (setN st i nd).len = st.len := rfl

@[simp] theorem setN_head_all {V E : Type} (st : St V E) (i : Nat) (nd : Node (Comp V E)) :
    (setN st i nd).head_all = st.head_all := rfl

@[simp] theorem setN_tail_readiness {V E : Type} (st : St V E) (i : Nat)
    (nd : Node (Comp V E)) : (setN st i nd).tail_readiness = st.tail_readiness := rfl

@[simp] theorem setN_head_readiness {V E : Type} (st : St V E) (i : Nat)
    (nd : Node (Comp V E)) : (setN st i nd).head_readiness = st.head_readiness := rfl

@[simp] theorem setN_ref_count {V E : Type} (st : St V E) (i : Nat)
    (nd : Node (Comp V E)) : (setN st i nd).ref_count = st.ref_count := rfl

@[simp] theorem setN_inner_alive {V E : Type} (st : St V E) (i : Nat)
    (nd : Node (Comp V E)) : (setN st i nd).inner_alive = st.inner_alive := rfl

theorem unlink_evs {V E : Type} (st : St V E) (n : Nat) :
    (unlink st n).2 = [Ev.unlinkN n] := by
  rcases hnx : (getN st.heap n).next_all with _ | nx <;>
    rcases hpv : (getN st.heap n).prev_all with _ | pv <;>
    simp [unlink, hnx, hpv]

theorem unlink_fields {V E : Type} (st : St V E) (n : Nat) :
    (unlink st n).1.tail_readiness = st.tail_readiness ∧
    (unlink st n).1.head_readiness = st.head_readiness ∧
    (unlink st n).1.len = st.len ∧
    (unlink st n).1.nextId = st.nextId ∧
    (unlink st n).1.ref_count = st.ref_count ∧
    (unlink st n).1.inner_alive = st.inner_alive := by
  rcases hnx : (getN st.heap n).next_all with _ | nx <;>
    rcases hpv : (getN st.heap n).prev_all with _ | pv <;>
    simp [unlink, hnx, hpv]

theorem unlink_isSome {V E : Type} (st : St V E) (n : Nat) (k : Nat) :
    (hfind (unlink st n).1.heap k).isSome = (hfind st.heap k).isSome := by
  rcases hnx : (getN st.heap n).next_all with _ | nx <;>
    rcases hpv : (getN st.heap n).prev_all with _ | pv <;>
    simp [unlink, hnx, hpv, hfind_hset_isSome]

theorem unlink_self {V E : Type} (st : St V E) (n : Nat)
    (hn : (hfind st.heap n).isSome)
    (hnn : (getN st.heap n).next_all ≠ some n)
    (hpn : (getN st.heap n).prev_all ≠ some n) :
    getN (unlink st n).1.heap n
      = { getN st.heap n with next_all := none, prev_all := none } := by
  rcases hnx : (getN st.heap n).next_all with _ | nx <;>
    rcases hpv : (getN st.heap n).prev_all with _ | pv <;>
    simp only [unlink, hnx, hpv, setN_heap]
  · exact getN_hset_self hn
  · rw [getN_hset_ne (fun hh => hpn (hpv ▸ congrArg some hh.symm))]
    exact getN_hset_self hn
  · rw [getN_hset_ne (fun hh => hnn (hnx ▸ congrArg some hh.symm))]
    exact getN_hset_self hn
  · rw [getN_hset_ne (fun hh => hpn (hpv ▸ congrArg some hh.symm)),
        getN_hset_ne (fun hh => hnn (hnx ▸ congrArg some hh.symm))]
    exact getN_hset_self hn

theorem unlink_head_all_of_prev_none {V E : Type} (st : St V E) (n : Nat)
    (hpv : (getN st.heap n).prev_all = none) :
    (unlink st n).1.head_all = (getN st.heap n).next_all := by
  unfold unlink
  rcases hnx : (getN st.heap n).next_all with _ | nx <;> simp [hpv, hnx]

theorem unlink_head_all_of_prev_some {V E : Type} (st : St V E) (n pv : Nat)
    (hpv : (getN st.heap n).prev_all = some pv) :
    (unlink st n).1.head_all = st.head_all := by
  unfold unlink
  rcases hnx : (getN st.heap n).next_all with _ | nx <;> simp [hpv, hnx]

theorem unlink_next_node {V E : Type} (st : St V E) (n nx : Nat)
    (hnx : (getN st.heap n).next_all = some nx)
    (hnxm : (hfind st.heap nx).isSome)
    (hne : nx ≠ n)
    (hnp : (getN st.heap n).prev_all ≠ some nx) :
    getN (unlink st n).1.heap nx
      = { getN st.heap nx with prev_all := (getN st.heap n).prev_all } := by
  rcases hpv : (getN st.heap n).prev_all with _ | pv <;>
    simp only [unlink, hnx, hpv, setN_heap]
  · have h1 : (hfind (hset st.heap n
        { getN st.heap n with next_all := none, prev_all := none }) nx).isSome := by
      rw [hfind_hset_isSome]; exact hnxm
    rw [getN_hset_self h1, getN_hset_ne hne]
  · have hnxpv : nx ≠ pv := fun hh => hnp (hpv ▸ congrArg some hh.symm)
    have h1 : (hfind (hset st.heap n
        { getN st.heap n with next_all := none, prev_all := none }) nx).isSome := by
      rw [hfind_hset_isSome]; exact hnxm
    rw [getN_hset_ne hnxpv, getN_hset_self h1, getN_hset_ne hne]

theorem unlink_prev_node {V E : Type} (st : St V E) (n pv : Nat)
    (hpv : (getN st.heap n).prev_all = some pv)
    (hpvm : (hfind st.heap pv).isSome)
    (hne : pv ≠ n)
    (hpn : (getN st.heap n).next_all ≠ some pv) :
    getN (unlink st n).1.heap pv
      = { getN st.heap pv with next_all := (getN st.heap n).next_all } := by
  rcases hnx : (getN st.heap n).next_all with _ | nx <;>
    simp only [unlink, hnx, hpv, setN_heap]
  · have h1 : (hfind (hset st.heap n
        { getN st.heap n with next_all := none, prev_all := none }) pv).isSome := by
      rw [hfind_hset_isSome]; exact hpvm
    rw [getN_hset_self h1, getN_hset_ne hne]
  · have hpvnx : pv ≠ nx := fun hh => hpn (hnx ▸ congrArg some hh.symm)
    have h1 : (hfind (hset (hset st.heap n
        { getN st.heap n with next_all := none, prev_all := none }) nx
        { getN (hset st.heap n
            { getN st.heap n with next_all := none, prev_all := none }) nx with
          prev_all := some pv }) pv).isSome := by
      rw [hfind_hset_isSome, hfind_hset_isSome]; exact hpvm
    rw [getN_hset_self h1, getN_hset_ne hpvnx, getN_hset_ne hne]

theorem unlink_other {V E : Type} (st : St V E) (n k : Nat)
    (hk1 : k ≠ n)
    (hk2 : (getN st.heap n).next_all ≠ some k)
    (hk3 : (getN st.heap n).prev_all ≠ some k) :
    hfind (unlink st n).1.heap k = hfind st.heap k := by
  rcases hnx : (getN st.heap n).next_all with _ | nx <;>
    rcases hpv : (getN st.heap n).prev_all with _ | pv <;>
    simp only [unlink, hnx, hpv, setN_heap]
  · rw [hfind_hset_ne hk1]
  · have : k ≠ pv := fun hh => hk3 (hpv.trans (congrArg some hh.symm))
    rw [hfind_hset_ne this, hfind_hset_ne hk1]
  · have : k ≠ nx := fun hh => hk2 (hnx.trans (congrArg some hh.symm))
    rw [hfind_hset_ne this, hfind_hset_ne hk1]
  · have h2 : k ≠ nx := fun hh => hk2 (hnx.trans (congrArg some hh.symm))
    have h3 : k ≠ pv := fun hh => hk3 (hpv.trans (congrArg some hh.symm))
    rw [hfind_hset_ne h3, hfind_hset_ne h2, hfind_hset_ne hk1]

/-- `release` characterised: wrapping decrement; no free unless the
masked pre-decrement count is one; abort exactly when the computation
slot is still occupied; free otherwise. -/
theorem release_spec {V E : Type} (w : Nat) (st : St V E) (n : Nat)
    (hn : (hfind st.heap n).isSome) :
    ((getN st.heap n).state &&& NOT_QUEUED w ≠ 1 →
      release w st n = Except.ok (setN st n
        { getN st.heap n with
          state := ((getN st.heap n).state + USIZE_MAX w) % 2 ^ w },
        [Ev.decRef n ((getN st.heap n).state)])) ∧
    ((getN st.heap n).state &&& NOT_QUEUED w = 1 →
      (getN st.heap n).future.isSome →
      release w st n = Except.error dropMsg) ∧
    ((getN st.heap n).state &&& NOT_QUEUED w = 1 →
      (getN st.heap n).future = none →
      release w st n = Except.ok ({ st with heap := hremove st.heap n },
        [Ev.decRef n ((getN st.heap n).state), Ev.freeNode n])) := by
  have hself : getN (hset st.heap n
      { getN st.heap n with
        state := ((getN st.heap n).state + USIZE_MAX w) % 2 ^ w }) n
      = { getN st.heap n with
          state := ((getN st.heap n).state + USIZE_MAX w) % 2 ^ w } :=
    getN_hset_self hn
  refine ⟨?_, ?_, ?_⟩
  · intro hrc
    simp [release, hrc]
  · intro hrc hfut
    simp [release, hrc, setN_heap, hself, hfut]
  · intro hrc hfut
    simp only [release, hrc, setN_heap, hself]
    simp [hfut, hremove_hset]

/-- `notify` characterised: the state word always becomes
`prev ||| QUEUED`; when the flag was clear the node is enqueued and the
parent signalled afterwards; when it was set nothing else happens. -/
theorem notify_spec {V E : Type} (w : Nat) (st : St V E) (n : Nat)
    (hn : (hfind st.heap n).isSome)
    (hprev : (hfind st.heap st.head_readiness).isSome)
    (hne : st.head_readiness ≠ n) :
    (getN (notify w st n).1.heap n).state
      = (getN st.heap n).state ||| QUEUED w ∧
    ((getN st.heap n).state &&& QUEUED w = 0 →
      (notify w st n).2 = [Ev.setQueued n ((getN st.heap n).state),
        Ev.enq n, Ev.signalParent] ∧
      (notify w st n).1.head_readiness = n ∧
      (getN (notify w st n).1.heap st.head_readiness).next_readiness = some n) ∧
    ((getN st.heap n).state &&& QUEUED w ≠ 0 →
      (notify w st n).2 = [Ev.setQueued n ((getN st.heap n).state)] ∧
      (notify w st n).1 = setN st n
        { getN st.heap n with
          state := (getN st.heap n).state ||| QUEUED w }) := by
  have hn1 : (hfind (hset st.heap n
      { getN st.heap n with state := (getN st.heap n).state ||| QUEUED w }) n).isSome := by
    rw [hfind_hset_isSome]; exact hn
  have hprev1 : (hfind (hset st.heap n
      { getN st.heap n with state := (getN st.heap n).state ||| QUEUED w })
      st.head_readiness).isSome := by
    rw [hfind_hset_isSome]; exact hprev
  have hspec := enqueue_spec (setN st n
      { getN st.heap n with state := (getN st.heap n).state ||| QUEUED w }) n
      hn1 hprev1 hne
  by_cases hq : (getN st.heap n).state &&& QUEUED w = 0
  · refine ⟨?_, fun _ => ⟨?_, ?_, ?_⟩, fun hc => absurd hq hc⟩
    · have h2 := hspec.2.1
      simp only [setN_heap] at h2
      simp only [notify, if_pos hq, setN_heap]
      rw [h2, getN_hset_self hn]
    · simp only [notify, if_pos hq]
      rw [show (enqueue (setN st n
          { getN st.heap n with
            state := (getN st.heap n).state ||| QUEUED w }) n).2 = [Ev.enq n]
          from hspec.2.2.2.2.2]
      rfl
    · simp only [notify, if_pos hq]
      exact hspec.1
    · have h3 := hspec.2.2.1
      simp only [setN_heap, setN_head_readiness] at h3
      simp only [notify, if_pos hq, setN_heap]
      rw [h3, getN_hset_ne hne]
  · refine ⟨?_, fun hc => absurd hc hq, fun _ => ⟨?_, ?_⟩⟩
    · simp only [notify, if_neg hq, setN_heap]
      rw [getN_hset_self hn]
    · simp [notify, hq]
    · simp [notify, hq]

/-- `release_node` characterised: it sets `QUEUED`, drops the
computation, unlinks, and drops one strong reference (possibly freeing
the node) exactly when the flag was clear before; it never aborts. -/
theorem release_node_spec {V E : Type} (w : Nat) (hw : 0 < w) (st : St V E) (n : Nat)
    (hn : (hfind st.heap n).isSome)
    (hnn : (getN st.heap n).next_all ≠ some n)
    (hpn : (getN st.heap n).prev_all ≠ some n) :
    ∃ st', release_node w st n = Except.ok (st',
        Ev.setQueued n ((getN st.heap n).state) :: Ev.dropComp n ::
        Ev.unlinkN n ::
        (if (getN st.heap n).state &&& QUEUED w = 0 then
          Ev.decRef n ((getN st.heap n).state ||| QUEUED w) ::
          (if (getN st.heap n).state &&& NOT_QUEUED w = 1
           then [Ev.freeNode n] else [])
         else [])) ∧
      ((getN st.heap n).state &&& QUEUED w = 0 →
        (getN st.heap n).state &&& NOT_QUEUED w = 1 →
        hfind st'.heap n = none) ∧
      ((getN st.heap n).state &&& QUEUED w ≠ 0 →
        getN st'.heap n =
          { future := none, next_all := none, prev_all := none,
            next_readiness := (getN st.heap n).next_readiness,
            state := (getN st.heap n).state ||| QUEUED w }) := by
  have hst2 : setN (setN st n
        { getN st.heap n with state := (getN st.heap n).state ||| QUEUED w }) n
      { getN (setN st n
          { getN st.heap n with
            state := (getN st.heap n).state ||| QUEUED w }).heap n with
        future := none }
      = setN st n { getN st.heap n with
          state := (getN st.heap n).state ||| QUEUED w, future := none } := by
    simp only [setN, setN_heap]
    rw [hset_hset]
    rw [getN_hset_self hn]
  set A : St V E := setN st n { getN st.heap n with
      state := (getN st.heap n).state ||| QUEUED w, future := none } with hA
  have hn2 : (hfind A.heap n).isSome := by
    rw [hA, setN_heap, hfind_hset_isSome]; exact hn
  have hg2 : getN A.heap n
      = { getN st.heap n with
          state := (getN st.heap n).state ||| QUEUED w, future := none } := by
    rw [hA, setN_heap]; exact getN_hset_self hn
  have huself := unlink_self A n hn2 (by rw [hg2]; exact hnn) (by rw [hg2]; exact hpn)
  rw [hg2] at huself
  have huevs := unlink_evs A n
  have hun : (hfind (unlink A n).1.heap n).isSome := by
    rw [unlink_isSome]; exact hn2
  have hstate : (getN (unlink A n).1.heap n).state
      = (getN st.heap n).state ||| QUEUED w := by rw [huself]
  have hfut : (getN (unlink A n).1.heap n).future = none := by rw [huself]
  by_cases hq : (getN st.heap n).state &&& QUEUED w = 0
  · -- the flag was clear: one strong reference is dropped
    have hrel := release_spec w (unlink A n).1 n hun
    by_cases hrc : (getN st.heap n).state &&& NOT_QUEUED w = 1
    · -- the count reaches zero and the slot is empty: the node is freed
      have hc1 : (getN (unlink A n).1.heap n).state &&& NOT_QUEUED w = 1 := by
        rw [hstate, rc_of_or w hw]; exact hrc
      have hrelease := hrel.2.2 hc1 hfut
      rw [hstate] at hrelease
      refine ⟨{ (unlink A n).1 with heap := hremove (unlink A n).1.heap n },
        ?_, ?_, fun hc => absurd hq hc⟩
      · simp only [release_node]
        rw [hst2, if_pos hq, hrelease, huevs, if_pos hq, if_pos hrc]
        rfl
      · intro _ _
        simp [hfind_hremove]
    · -- the count stays positive: only the reference is dropped
      have hc1 : (getN (unlink A n).1.heap n).state &&& NOT_QUEUED w ≠ 1 := by
        rw [hstate, rc_of_or w hw]; exact hrc
      have hrelease := hrel.1 hc1
      rw [hstate] at hrelease
      refine ⟨setN (unlink A n).1 n
          { getN (unlink A n).1.heap n with
            state := (((getN st.heap n).state ||| QUEUED w) + USIZE_MAX w) % 2 ^ w },
        ?_, fun _ hc => absurd hc hrc, fun hc => absurd hq hc⟩
      · simp only [release_node]
        rw [hst2, if_pos hq, hrelease, huevs, if_pos hq, if_neg hrc]
        rfl
  · -- the flag was already set: the node stays alive and queued
    refine ⟨(unlink A n).1, ?_, fun hc => absurd hc hq, fun _ => huself⟩
    simp only [release_node]
    rw [hst2, if_neg hq, huevs, if_neg hq]

theorem hfind_eq_getN {F : Type} {h : Heap F} {i : Nat}
    (hi : (hfind h i).isSome) : hfind h i = some (getN h i) := by
  cases hx : hfind h i with
  | none => rw [hx] at hi; simp at hi
  | some x => simp [getN, hx]

theorem hfind_cons_ne {F : Type} (h : Heap F) (j k : Nat) (nd : Node F)
    (hjk : j ≠ k) : hfind ((j, nd) :: h) k = hfind h k := by
  simp [hfind, hjk]

theorem getN_of_hfind {F : Type} {h : Heap F} {i : Nat} {x : Node F}
    (hx : hfind h i = some x) : getN h i = x := by
  simp [getN, hx]

theorem getN_congr {F : Type} {h h2 : Heap F} {i : Nat}
    (hh : hfind h i = hfind h2 i) : getN h i = getN h2 i := by
  simp [getN, hh]

/-- C8: `push` allocates a node holding the computation with
`prev_all = null`, `next_all =` the previous `head_all`, and
`state = QUEUED | 1`; it splices the node at the head of the owner set
(fixing the back-pointer of the old head when present), increments `len`
by one, enqueues the node onto the readiness queue, and never polls the
computation (the event trace is exactly one enqueue event). -/
theorem C8_push {V E : Type} (w : Nat) (st : St V E) (c : Comp V E)
    (hfresh : ∀ k, (hfind st.heap k).isSome → k < st.nextId)
    (hhr : (hfind st.heap st.head_readiness).isSome)
    (hha : ∀ hd, st.head_all = some hd → (hfind st.heap hd).isSome) :
    hfind (push w st c).1.heap st.nextId = some
      { future := some c, next_all := st.head_all, prev_all := none,
        next_readiness := none, state := QUEUED w ||| 1 } ∧
    (push w st c).1.head_all = some st.nextId ∧
    (push w st c).1.len = st.len + 1 ∧
    (∀ hd, st.head_all = some hd →
      (getN (push w st c).1.heap hd).prev_all = some st.nextId) ∧
    (push w st c).1.head_readiness = st.nextId ∧
    (getN (push w st c).1.heap st.head_readiness).next_readiness
      = some st.nextId ∧
    (push w st c).2 = [Ev.enq st.nextId] := by
  have hhrlt : st.head_readiness < st.nextId := hfresh _ hhr
  have hhrne : st.head_readiness ≠ st.nextId := by omega
  rcases hcase : st.head_all with _ | hd
  · -- no previous owner head
    simp only [push, hcase]
    set st3 : St V E :=
      { st with
        heap := (st.nextId, ({ future := some c, next_all := none, prev_all := none, next_readiness := none, state := QUEUED w ||| 1 } : Node (Comp V E))) :: st.heap,
        nextId := st.nextId + 1,
        head_all := some st.nextId } with hst3
    have hheq : st3.heap = (st.nextId, ({ future := some c, next_all := none, prev_all := none, next_readiness := none, state := QUEUED w ||| 1 } : Node (Comp V E))) :: st.heap := rfl
    have hp3 : hfind st3.heap st.nextId = some
        { future := some c, next_all := none, prev_all := none,
          next_readiness := none, state := QUEUED w ||| 1 } := by
      rw [hheq]
      simp [hfind]
    have hq3 : hfind st3.heap st.head_readiness
        = hfind st.heap st.head_readiness := by
      rw [hheq]
      exact hfind_cons_ne _ _ _ _ (Ne.symm hhrne)
    have hspec := enqueue_spec st3 st.nextId (by rw [hp3]; rfl)
      (by rw [show st3.head_readiness = st.head_readiness from rfl, hq3]; exact hhr)
      hhrne
    refine ⟨?_, rfl, rfl, ?_, hspec.1, ?_, hspec.2.2.2.2.2⟩
    · rw [hfind_eq_getN (by rw [hspec.2.2.2.2.1 st.nextId, hp3]; rfl), hspec.2.1,
        getN_of_hfind hp3]
    · intro hd2 hcc
      exact absurd hcc (by simp)
    · have h3 := hspec.2.2.1
      rw [show st3.head_readiness = st.head_readiness from rfl] at h3
      rw [h3]
  · -- a previous owner head exists: its back-pointer is fixed
    have hhd : (hfind st.heap hd).isSome := hha hd hcase
    have hhdlt : hd < st.nextId := hfresh _ hhd
    have hhdne : hd ≠ st.nextId := by omega
    simp only [push, hcase]
    simp only [setN_heap, setN_nextId, setN_len, setN_head_all,
      setN_tail_readiness, setN_head_readiness, setN_ref_count, setN_inner_alive]
    set heap1 : Heap (Comp V E) :=
      (st.nextId, ({ future := some c, next_all := some hd, prev_all := none, next_readiness := none, state := QUEUED w ||| 1 } : Node (Comp V E))) :: st.heap
      with hheap1
    have hfind1 : ∀ k, k ≠ st.nextId → hfind heap1 k = hfind st.heap k := by
      intro k hk
      rw [hheap1]
      exact hfind_cons_ne _ _ _ _ (Ne.symm hk)
    have hp1 : hfind heap1 st.nextId = some
        { future := some c, next_all := some hd, prev_all := none,
          next_readiness := none, state := QUEUED w ||| 1 } := by
      rw [hheap1]
      simp [hfind]
    set st3 : St V E :=
      { st with
        heap := hset heap1 hd { getN heap1 hd with prev_all := some st.nextId },
        nextId := st.nextId + 1,
        head_all := some st.nextId } with hst3
    have hheq3 : st3.heap = hset heap1 hd { getN heap1 hd with prev_all := some st.nextId } := rfl
    have hp3 : hfind st3.heap st.nextId = some
        { future := some c, next_all := some hd, prev_all := none,
          next_readiness := none, state := QUEUED w ||| 1 } := by
      rw [hheq3, hfind_hset_ne (Ne.symm hhdne)]
      exact hp1
    have hq3some : (hfind st3.heap st.head_readiness).isSome := by
      rw [hheq3, hfind_hset_isSome, hfind1 _ hhrne]
      exact hhr
    have hspec := enqueue_spec st3 st.nextId (by rw [hp3]; rfl) hq3some hhrne
    have hhd3 : getN st3.heap hd = { getN st.heap hd with prev_all := some st.nextId } := by
      rw [hheq3]
      have hm : (hfind heap1 hd).isSome := by rw [hfind1 _ hhdne]; exact hhd
      rw [getN_hset_self hm]
      rw [getN_congr (hfind1 hd hhdne)]
    refine ⟨?_, rfl, rfl, ?_, hspec.1, ?_, hspec.2.2.2.2.2⟩
    · rw [hfind_eq_getN (by rw [hspec.2.2.2.2.1 st.nextId, hp3]; rfl), hspec.2.1,
        getN_of_hfind hp3]
    · intro hd2 hcc
      cases hcc
      by_cases hqh : st.head_readiness = hd
      · have h3 := hspec.2.2.1
        rw [show st3.head_readiness = st.head_readiness from rfl] at h3
        rw [hqh] at h3
        rw [h3, hhd3]
      · have hother := hspec.2.2.2.1 hd hhdne (fun hh => hqh hh.symm)
        rw [getN, hother, ← getN, hhd3]
    · have h3 := hspec.2.2.1
      rw [show st3.head_readiness = st.head_readiness from rfl] at h3
      rw [h3]

/-- Witness for C8: pushing a ready computation onto the concrete
collection `stQ`. -/
theorem C8_witness :
    hfind (push 4 stQ (Comp.ready false 5)).1.heap 2 = some
      { future := some (Comp.ready false 5), next_all := some 1,
        prev_all := none, next_readiness := none, state := QUEUED 4 ||| 1 } ∧
    (push 4 stQ (Comp.ready false 5)).1.len = 2 ∧
    (push 4 stQ (Comp.ready false 5)).2 = [Ev.enq 2] := by
  have hfresh : ∀ k, (hfind stQ.heap k).isSome → k < stQ.nextId := by
    intro k hk
    by_cases h0 : (0 : Nat) = k
    · subst h0; decide
    · by_cases h1 : (1 : Nat) = k
      · subst h1; decide
      · exfalso
        simp [stQ, stubId, hfind, h0, h1] at hk
  have hha : ∀ hd, stQ.head_all = some hd → (hfind stQ.heap hd).isSome := by
    intro hd hh
    have h2 : hd = 1 := by
      simp [stQ] at hh
      omega
    subst h2
    decide
  have h := C8_push 4 stQ (Comp.ready false 5) hfresh (by decide) hha
  exact ⟨h.1, h.2.2.1, h.2.2.2.2.2.2⟩

theorem getN_hset_fut {F : Type} (h : Heap F) (i j : Nat) (nd : Node F)
    (hj : (getN h j).future = none) (hnd : nd.future = none) :
    (getN (hset h i nd) j).future = none := by
  by_cases hij : j = i
  · subst hij
    cases hm : hfind h j with
    | none => rw [hset_of_missing hm]; exact hj
    | some x =>
      rw [getN_hset_self (show (hfind h j).isSome from by simp [hm])]
      exact hnd
  · rw [getN_hset_ne hij]
    exact hj

/-- Unlinking a node whose computation slot is empty leaves it empty,
even on degenerate (self-linked) heaps. -/
theorem unlink_future_none {V E : Type} (s : St V E) (n : Nat)
    (hf : (getN s.heap n).future = none) :
    (getN (unlink s n).1.heap n).future = none := by
  rcases hnx : (getN s.heap n).next_all with _ | nx <;>
    rcases hpv : (getN s.heap n).prev_all with _ | pv <;>
    simp only [unlink, hnx, hpv, setN_heap]
  · exact getN_hset_fut _ _ _ _ hf hf
  · have hA : (getN (hset s.heap n
        { getN s.heap n with next_all := none, prev_all := none }) n).future
        = none := getN_hset_fut _ _ _ _ hf hf
    by_cases hvn : pv = n
    · subst hvn
      exact getN_hset_fut _ _ _ _ hA hA
    · rw [getN_hset_ne (fun hh => hvn hh.symm)]
      exact hA
  · have hA : (getN (hset s.heap n
        { getN s.heap n with next_all := none, prev_all := none }) n).future
        = none := getN_hset_fut _ _ _ _ hf hf
    by_cases hxn : nx = n
    · subst hxn
      exact getN_hset_fut _ _ _ _ hA hA
    · rw [getN_hset_ne (fun hh => hxn hh.symm)]
      exact hA
  · have hA : (getN (hset s.heap n
        { getN s.heap n with next_all := none, prev_all := none }) n).future
        = none := getN_hset_fut _ _ _ _ hf hf
    have hB : (getN (hset (hset s.heap n
        { getN s.heap n with next_all := none, prev_all := none }) nx
        { getN (hset s.heap n
            { getN s.heap n with next_all := none, prev_all := none }) nx with
          prev_all := some pv }) n).future = none := by
      by_cases hxn : nx = n
      · subst hxn
        exact getN_hset_fut _ _ _ _ hA hA
      · rw [getN_hset_ne (fun hh => hxn hh.symm)]
        exact hA
    by_cases hvn : pv = n
    · subst hvn
      exact getN_hset_fut _ _ _ _ hB hB
    · rw [getN_hset_ne (fun hh => hvn hh.symm)]
      exact hB

/-- `release` cannot abort on a node whose computation slot is empty. -/
theorem release_no_error_of_future_none {V E : Type} (w : Nat) (st : St V E)
    (n : Nat) (hf : (getN st.heap n).future = none) (m : String) :
    release w st n ≠ Except.error m := by
  by_cases hrc : (getN st.heap n).state &&& NOT_QUEUED w ≠ 1
  · simp [release, hrc]
  · have hfut1 : (getN (hset st.heap n
        { getN st.heap n with
          state := ((getN st.heap n).state + USIZE_MAX w) % 2 ^ w }) n).future
        = none := getN_hset_fut _ _ _ _ hf hf
    simp only [release, setN_heap]
    rw [if_neg hrc, hfut1]
    simp

/-- `release_node` never aborts: the consumer clears the computation slot
before it drops the owner reference. -/
theorem release_node_never_errors {V E : Type} (w : Nat) (st : St V E) (n : Nat)
    (m : String) : release_node w st n ≠ Except.error m := by
  have hst2 : setN (setN st n
        { getN st.heap n with state := (getN st.heap n).state ||| QUEUED w }) n
      { getN (setN st n
          { getN st.heap n with
            state := (getN st.heap n).state ||| QUEUED w }).heap n with
        future := none }
      = setN st n { getN st.heap n with
          state := (getN st.heap n).state ||| QUEUED w, future := none } := by
    cases hm : hfind st.heap n with
    | none =>
      simp only [setN, setN_heap]
      rw [hset_of_missing hm, hset_of_missing hm, hset_of_missing hm]
    | some x =>
      simp only [setN, setN_heap]
      rw [hset_hset, getN_hset_self (show (hfind st.heap n).isSome from by simp [hm])]
  set A : St V E := setN st n { getN st.heap n with
      state := (getN st.heap n).state ||| QUEUED w, future := none } with hA
  have hfutA : (getN A.heap n).future = none := by
    rw [hA, setN_heap]
    cases hm : hfind st.heap n with
    | none => rw [hset_of_missing hm, getN, hm]; rfl
    | some x => rw [getN_hset_self (show (hfind st.heap n).isSome from by simp [hm])]
  have hfutU : (getN (unlink A n).1.heap n).future = none :=
    unlink_future_none A n hfutA
  simp only [release_node]
  rw [hst2]
  by_cases hq : (getN st.heap n).state &&& QUEUED w = 0
  · rw [if_pos hq]
    cases hrel : release w (unlink A n).1 n with
    | ok q => simp
    | error m2 =>
      exact absurd hrel (release_no_error_of_future_none w _ n hfutU m2)
  · rw [if_neg hq]
    simp

/-- C1: `notify` enqueues the node and then signals the parent exactly
when its `QUEUED` flag transitioned from 0 to 1 in the `fetch_or`
(conjuncts 1-3); a second notification right after enqueues nothing, so
a notification arriving after the consumer cleared the flag re-enqueues
the node exactly once (conjunct 4); and the consumer clears `QUEUED`
with `fetch_and`, asserting the flag was set, strictly before polling
the computation of a dequeued node (conjunct 5: the poll-iteration trace
starts with the clear followed by the computation poll, and the
iteration panics when the flag was not set). -/
theorem C1_notify_protocol {V E : Type} (w : Nat) (hw : 0 < w)
    (s : St V E) (m : Nat)
    (hm : (hfind s.heap m).isSome)
    (hqh : (hfind s.heap s.head_readiness).isSome)
    (hne : s.head_readiness ≠ m) :
    (getN (notify w s m).1.heap m).state = (getN s.heap m).state ||| QUEUED w ∧
    ((getN s.heap m).state &&& QUEUED w = 0 →
      (notify w s m).2 = [Ev.setQueued m ((getN s.heap m).state),
        Ev.enq m, Ev.signalParent]) ∧
    ((getN s.heap m).state &&& QUEUED w ≠ 0 →
      (notify w s m).2 = [Ev.setQueued m ((getN s.heap m).state)]) ∧
    ((getN s.heap m).state &&& QUEUED w = 0 →
      (notify w (notify w s m).1 m).2
        = [Ev.setQueued m ((getN s.heap m).state ||| QUEUED w)]) ∧
    (∀ st stD : St V E, ∀ n : Nat, ∀ c : Comp V E,
      dequeue st = (stD, Dq.Data n) →
      (getN stD.heap n).future = some c →
      ((getN stD.heap n).state &&& QUEUED w ≠ QUEUED w →
        pollIter w st = Except.error assertFlagMsg) ∧
      ((getN stD.heap n).state &&& QUEUED w = QUEUED w →
        ∃ st2 evs r, pollIter w st = Except.ok (st2, evs, r) ∧
          evs.take 2 = [Ev.clearQueued n ((getN stD.heap n).state),
            Ev.pollComp n])) := by
  have hsp := notify_spec w s m hm hqh hne
  refine ⟨hsp.1, fun h => (hsp.2.1 h).1, fun h => (hsp.2.2 h).1, ?_, ?_⟩
  · intro h
    generalize hgen : (notify w s m).1 = s2
    rw [hgen] at hsp
    have hflag2 : ¬ (getN s2.heap m).state &&& QUEUED w = 0 := by
      rw [hsp.1, flag_of_or w hw]
      have hqpos : 0 < QUEUED w := by
        rw [QUEUED_eq w hw]
        exact Nat.pos_pow_of_pos _ (by omega)
      omega
    simp only [notify, if_neg hflag2]
    rw [hsp.1]
  · intro st stD n c hdq hfut
    constructor
    · intro hflag
      simp only [pollIter, hdq, hfut]
      rw [if_neg hflag]
    · intro hflag
      simp only [pollIter, hdq, hfut]
      rw [if_pos hflag]
      rcases hcp : compPoll c with ⟨res, c2, nd⟩
      cases res with
      | notReady => exact ⟨_, _, _, rfl, rfl⟩
      | ready v =>
        dsimp only
        split
        · exact ⟨_, _, _, rfl, rfl⟩
        · rename_i m2 heq
          exact absurd heq (release_node_never_errors w _ n m2)
      | err e =>
        dsimp only
        split
        · exact ⟨_, _, _, rfl, rfl⟩
        · rename_i m2 heq
          exact absurd heq (release_node_never_errors w _ n m2)

/-- A concrete state whose readiness queue holds node 1 (tail) followed
by the stub (head). -/
def stDq : St Nat Nat :=
  { heap := [(stubId, stubNode4),
             (1, { future := some (Comp.pend false (Comp.ready false 0)),
                   next_all := none, prev_all := none,
                   next_readiness := some stubId, state := QUEUED 4 ||| 1 })]
    nextId := 2
    len := 1
    head_all := some 1
    tail_readiness := 1
    head_readiness := stubId
    ref_count := 1
    inner_alive := true }

/-- Witness for C1 on concrete states. -/
theorem C1_witness :
    (notify 4 stInc 1).2 = [Ev.setQueued 1 1, Ev.enq 1, Ev.signalParent] ∧
    (notify 4 (notify 4 stInc 1).1 1).2 = [Ev.setQueued 1 (1 ||| QUEUED 4)] ∧
    (∃ st2 evs r, pollIter 4 stDq = Except.ok (st2, evs, r) ∧
      evs.take 2 = [Ev.clearQueued 1 (QUEUED 4 ||| 1), Ev.pollComp 1]) := by
  have h := @C1_notify_protocol Nat Nat 4 (by decide) stInc 1 (by decide)
    (by decide) (by decide)
  refine ⟨h.2.1 (by decide), h.2.2.2.1 (by decide), ?_⟩
  exact (h.2.2.2.2 stDq { stDq with tail_readiness := stubId } 1
    (Comp.pend false (Comp.ready false 0)) (by decide) (by decide)).2 (by decide)

theorem release_len {V E : Type} (w : Nat) (s : St V E) (k : Nat)
    (s2 : St V E) (evs : List Ev)
    (h : release w s k = Except.ok (s2, evs)) : s2.len = s.len := by
  simp only [release] at h
  split at h
  · have h1 := Except.ok.inj h
    have h2 : setN s k { getN s.heap k with
        state := ((getN s.heap k).state + USIZE_MAX w) % 2 ^ w } = s2 :=
      congrArg Prod.fst h1
    rw [← h2]
    rfl
  · split at h
    · cases h
    · have h1 := Except.ok.inj h
      have h2 : ({ setN s k { getN s.heap k with
          state := ((getN s.heap k).state + USIZE_MAX w) % 2 ^ w } with
          heap := hremove (hset s.heap k { getN s.heap k with
            state := ((getN s.heap k).state + USIZE_MAX w) % 2 ^ w }) k } : St V E)
          = s2 := congrArg Prod.fst h1
      rw [← h2]
      rfl

theorem release_node_len {V E : Type} (w : Nat) (s : St V E) (k : Nat)
    (s2 : St V E) (evs : List Ev)
    (h : release_node w s k = Except.ok (s2, evs)) : s2.len = s.len := by
  simp only [release_node] at h
  split at h
  · split at h
    · rename_i q hrel
      have h1 := Except.ok.inj h
      have h2 : q.1 = s2 := congrArg Prod.fst h1
      obtain ⟨qa, qb⟩ := q
      have h3 := release_len w _ k qa qb hrel
      rw [← h2]
      rw [h3]
      exact (unlink_fields _ k).2.2.1
    · cases h
  · have h1 := Except.ok.inj h
    have h2 : (unlink (setN (setN s k
        { getN s.heap k with state := (getN s.heap k).state ||| QUEUED w }) k
        { getN (setN s k { getN s.heap k with
            state := (getN s.heap k).state ||| QUEUED w }).heap k with
          future := none }) k).1 = s2 := congrArg Prod.fst h1
    rw [← h2]
    exact (unlink_fields _ k).2.2.1

theorem notify_len {V E : Type} (w : Nat) (s : St V E) (m : Nat) :
    (notify w s m).1.len = s.len := by
  by_cases hq : (getN s.heap m).state &&& QUEUED w = 0 <;>
    simp [notify, hq, enqueue]

/-- C3: when a polled computation completes with a value or an error,
the poll iteration decrements `len` by one, runs release-node on the
node, and returns `Ready(Some value))` or `Err e`; and release-node
performs, in order, (a) `fetch_or(QUEUED)`, (b) take and drop the
computation slot, (c) unlink from the owner set, (d) drop one strong
reference — freeing the node exactly when the masked count was one —
only if the `QUEUED` bit was not already set before step (a); otherwise
the reference is dropped later when the consumer revisits the
still-queued node, which keeps its slot empty. -/
theorem C3_completion_path {V E : Type} (w : Nat) (hw : 0 < w)
    (st stD : St V E) (n : Nat) (c : Comp V E)
    (hdq : dequeue st = (stD, Dq.Data n))
    (hfut : (getN stD.heap n).future = some c)
    (hflag : (getN stD.heap n).state &&& QUEUED w = QUEUED w)
    (hlen : 0 < stD.len) :
    (∀ s : St V E, ∀ k : Nat, (hfind s.heap k).isSome →
      (getN s.heap k).next_all ≠ some k →
      (getN s.heap k).prev_all ≠ some k →
      ∃ s2, release_node w s k = Except.ok (s2,
        Ev.setQueued k ((getN s.heap k).state) :: Ev.dropComp k ::
        Ev.unlinkN k ::
        (if (getN s.heap k).state &&& QUEUED w = 0 then
          Ev.decRef k ((getN s.heap k).state ||| QUEUED w) ::
          (if (getN s.heap k).state &&& NOT_QUEUED w = 1
           then [Ev.freeNode k] else [])
         else [])) ∧
      ((getN s.heap k).state &&& QUEUED w = 0 →
        (getN s.heap k).state &&& NOT_QUEUED w = 1 →
        hfind s2.heap k = none) ∧
      ((getN s.heap k).state &&& QUEUED w ≠ 0 →
        getN s2.heap k =
          { future := none, next_all := none, prev_all := none,
            next_readiness := (getN s.heap k).next_readiness,
            state := (getN s.heap k).state ||| QUEUED w })) ∧
    (∀ v c2 nd, compPoll c = (POut.ready v, c2, nd) →
      ∃ st5 st2 evsP evsR,
        pollIter w st = Except.ok (st2, evsP ++ evsR,
          some (PRes.ready (some v))) ∧
        release_node w st5 n = Except.ok (st2, evsR) ∧
        st2.len + 1 = stD.len ∧
        evsP.take 2 = [Ev.clearQueued n ((getN stD.heap n).state),
          Ev.pollComp n]) ∧
    (∀ e c2 nd, compPoll c = (POut.err e, c2, nd) →
      ∃ st5 st2 evsP evsR,
        pollIter w st = Except.ok (st2, evsP ++ evsR, some (PRes.err e)) ∧
        release_node w st5 n = Except.ok (st2, evsR) ∧
        st2.len + 1 = stD.len ∧
        evsP.take 2 = [Ev.clearQueued n ((getN stD.heap n).state),
          Ev.pollComp n]) := by
  refine ⟨fun s k hk hnn hpn => release_node_spec w hw s k hk hnn hpn, ?_, ?_⟩
  · intro v c2 nd hcp
    simp only [pollIter, hdq, hfut, hcp]
    rw [if_pos hflag]
    cases nd <;> split
    case false.h_1 =>
      rename_i q heq
      obtain ⟨qa, qb⟩ := q
      refine ⟨_, qa, _, qb, rfl, heq, ?_, rfl⟩
      have hl := release_node_len w _ n qa qb heq
      simp [notify_len] at hl
      omega
    case false.h_2 =>
      rename_i m2 heq
      exact absurd heq (release_node_never_errors w _ n m2)
    case true.h_1 =>
      rename_i q heq
      obtain ⟨qa, qb⟩ := q
      refine ⟨_, qa, _, qb, rfl, heq, ?_, rfl⟩
      have hl := release_node_len w _ n qa qb heq
      simp [notify_len] at hl
      omega
    case true.h_2 =>
      rename_i m2 heq
      exact absurd heq (release_node_never_errors w _ n m2)
  · intro e c2 nd hcp
    simp only [pollIter, hdq, hfut, hcp]
    rw [if_pos hflag]
    cases nd <;> split
    case false.h_1 =>
      rename_i q heq
      obtain ⟨qa, qb⟩ := q
      refine ⟨_, qa, _, qb, rfl, heq, ?_, rfl⟩
      have hl := release_node_len w _ n qa qb heq
      simp [notify_len] at hl
      omega
    case false.h_2 =>
      rename_i m2 heq
      exact absurd heq (release_node_never_errors w _ n m2)
    case true.h_1 =>
      rename_i q heq
      obtain ⟨qa, qb⟩ := q
      refine ⟨_, qa, _, qb, rfl, heq, ?_, rfl⟩
      have hl := release_node_len w _ n qa qb heq
      simp [notify_len] at hl
      omega
    case true.h_2 =>
      rename_i m2 heq
      exact absurd heq (release_node_never_errors w _ n m2)

/-- A concrete state whose queue holds node 1 (an already-completed
computation) followed by the stub. -/
def stDr : St Nat Nat :=
  { heap := [(stubId, stubNode4),
             (1, { future := some (Comp.ready false 7),
                   next_all := none, prev_all := none,
                   next_readiness := some stubId, state := QUEUED 4 ||| 1 })]
    nextId := 2
    len := 1
    head_all := some 1
    tail_readiness := 1
    head_readiness := stubId
    ref_count := 1
    inner_alive := true }

/-- Witness for C3: a completing poll iteration on a concrete state. -/
theorem C3_witness :
    ∃ st5 st2 evsP evsR,
      pollIter 4 stDr = Except.ok (st2, evsP ++ evsR,
        some (PRes.ready (some 7))) ∧
      release_node 4 st5 1 = Except.ok (st2, evsR) ∧
      st2.len + 1 = 1 ∧
      evsP.take 2 = [Ev.clearQueued 1 (QUEUED 4 ||| 1), Ev.pollComp 1] :=
  (C3_completion_path 4 (by decide) stDr { stDr with tail_readiness := stubId }
    1 (Comp.ready false 7) (by decide) (by decide) (by decide) (by decide)).2.1
    7 (Comp.ready false 7) false (by decide)

theorem pair_data_inj {V E : Type} {A st2 : St V E} {t n : Nat}
    (h : (A, Dq.Data t) = (st2, Dq.Data n)) : A = st2 ∧ t = n := by
  have h1 := congrArg Prod.fst h
  have h2 := congrArg Prod.snd h
  simp only at h1 h2
  exact ⟨h1, Dq.Data.inj h2⟩

theorem pair_empty_ne_data {V E : Type} {A st2 : St V E} {n : Nat}
    (h : (A, Dq.Empty) = (st2, Dq.Data n)) : False := by
  have h2 := congrArg Prod.snd h
  simp only at h2
  cases h2

theorem pair_incons_ne_data {V E : Type} {A st2 : St V E} {n : Nat}
    (h : (A, Dq.Inconsistent) = (st2, Dq.Data n)) : False := by
  have h2 := congrArg Prod.snd h
  simp only at h2
  cases h2

/-- C4: `dequeue` returns one of `Empty`, `Inconsistent`, `Data`
(inherent in its result type); whenever it returns `Data n`, the node
`n` is never the stub and the consumer tail has been advanced past `n`
(the new tail is exactly the successor stored in the queue link of `n`,
and differs from `n`); and in the step-5 case — the link of the tail is
null, the tail is not the stub, and the producer head equals the tail —
the stub is pushed as a separator, the link is re-read, and since the
re-read link is now the stub (non-null), the result is `Data(tail)`; the
`Inconsistent` return of that branch requires the re-read link to still
be null. -/
theorem C4_dequeue {V E : Type} (st : St V E)
    (hstub : (getN st.heap stubId).next_readiness ≠ some stubId)
    (hself : ∀ i nd, hfind st.heap i = some nd → nd.next_readiness ≠ some i) :
    (∀ st2 n, dequeue st = (st2, Dq.Data n) →
      n ≠ stubId ∧
      (getN st2.heap n).next_readiness = some st2.tail_readiness ∧
      st2.tail_readiness ≠ n) ∧
    ((hfind st.heap stubId).isSome →
     (hfind st.heap st.tail_readiness).isSome →
     st.tail_readiness ≠ stubId →
     (getN st.heap st.tail_readiness).next_readiness = none →
     st.head_readiness = st.tail_readiness →
      ∃ st2, dequeue st = (st2, Dq.Data st.tail_readiness) ∧
        st2.head_readiness = stubId ∧
        (getN st2.heap st.tail_readiness).next_readiness = some stubId ∧
        st2.tail_readiness = stubId) := by
  constructor
  · intro st2 n hdq
    simp only [dequeue, dequeueRest] at hdq
    split at hdq
    · -- the tail was the stub
      rename_i htail
      split at hdq
      · exact absurd hdq pair_empty_ne_data
      · rename_i nx hnx
        rw [htail] at hnx
        have hnxs : nx ≠ stubId := fun hc => hstub (hc ▸ hnx)
        split at hdq
        · rename_i z hz
          obtain ⟨hA, hn⟩ := pair_data_inj hdq
          subst hn
          have hz2 : (getN st.heap nx).next_readiness = some z := hz
          have hzx : z ≠ nx := by
            intro hc
            cases hm : hfind st.heap nx with
            | none => rw [getN, hm] at hz2; simp at hz2
            | some nd =>
              rw [getN, hm] at hz2
              exact hself nx nd hm (by rw [← hc]; simpa using hz2)
          refine ⟨hnxs, ?_, ?_⟩
          · rw [← hA]
            exact hz
          · rw [← hA]
            intro hc
            exact hzx hc
        · split at hdq
          · exact absurd hdq pair_incons_ne_data
          · rename_i hhead
            split at hdq
            · rename_i z hz
              obtain ⟨hA, hn⟩ := pair_data_inj hdq
              subst hn
              have hhead2 : st.head_readiness = nx := by
                by_contra hc
                exact hhead hc
              have hz2 : (getN (hset (hset st.heap stubId
                  { getN st.heap stubId with next_readiness := none })
                  st.head_readiness
                  { getN (hset st.heap stubId
                      { getN st.heap stubId with next_readiness := none })
                    st.head_readiness with
                    next_readiness := some stubId }) nx).next_readiness
                  = some z := hz
              rw [hhead2] at hz2
              have hz3 : z = stubId := by
                cases hm : hfind st.heap nx with
                | none =>
                  have h1 : hfind (hset st.heap stubId
                      { getN st.heap stubId with next_readiness := none }) nx
                      = none := by
                    rw [hfind_hset_ne hnxs]
                    exact hm
                  rw [hset_of_missing h1, getN, h1] at hz2
                  simp at hz2
                | some nd =>
                  have h2 : (hfind (hset st.heap stubId
                      { getN st.heap stubId with next_readiness := none })
                      nx).isSome := by
                    rw [hfind_hset_isSome]
                    simp [hm]
                  rw [getN_hset_self h2] at hz2
                  have hz4 : some stubId = some z := hz2
                  exact (Option.some.inj hz4).symm
              refine ⟨hnxs, ?_, ?_⟩
              · rw [← hA]
                exact hz
              · rw [← hA]
                intro hc
                have hc2 : z = nx := hc
                exact hnxs (hc2.symm.trans hz3)
            · exact absurd hdq pair_incons_ne_data
    · -- the tail was a real node
      rename_i htail
      split at hdq
      · rename_i z hz
        obtain ⟨hA, hn⟩ := pair_data_inj hdq
        subst hn
        have hzx : z ≠ st.tail_readiness := by
          intro hc
          cases hm : hfind st.heap st.tail_readiness with
          | none => rw [getN, hm] at hz; simp at hz
          | some nd =>
            rw [getN, hm] at hz
            exact hself _ nd hm (by rw [← hc]; simpa using hz)
        refine ⟨htail, ?_, ?_⟩
        · rw [← hA]
          exact hz
        · rw [← hA]
          intro hc
          exact hzx hc
      · split at hdq
        · exact absurd hdq pair_incons_ne_data
        · rename_i hhead
          split at hdq
          · rename_i z hz
            obtain ⟨hA, hn⟩ := pair_data_inj hdq
            subst hn
            have hhead2 : st.head_readiness = st.tail_readiness := by
              by_contra hc
              exact hhead hc
            have hz2 : (getN (hset (hset st.heap stubId
                { getN st.heap stubId with next_readiness := none })
                st.head_readiness
                { getN (hset st.heap stubId
                    { getN st.heap stubId with next_readiness := none })
                  st.head_readiness with
                  next_readiness := some stubId })
                st.tail_readiness).next_readiness = some z := hz
            rw [hhead2] at hz2
            have hz3 : z = stubId := by
              cases hm : hfind st.heap st.tail_readiness with
              | none =>
                have h1 : hfind (hset st.heap stubId
                    { getN st.heap stubId with next_readiness := none })
                    st.tail_readiness = none := by
                  rw [hfind_hset_ne htail]
                  exact hm
                rw [hset_of_missing h1, getN, h1] at hz2
                simp at hz2
              | some nd =>
                have h2 : (hfind (hset st.heap stubId
                    { getN st.heap stubId with next_readiness := none })
                    st.tail_readiness).isSome := by
                  rw [hfind_hset_isSome]
                  simp [hm]
                rw [getN_hset_self h2] at hz2
                have hz4 : some stubId = some z := hz2
                exact (Option.some.inj hz4).symm
            refine ⟨htail, ?_, ?_⟩
            · rw [← hA]
              exact hz
            · rw [← hA]
              intro hc
              have hc2 : z = st.tail_readiness := hc
              exact htail (hc2.symm.trans hz3)
          · exact absurd hdq pair_incons_ne_data
  · -- the step-5 separator push
    intro hstubm htm htail hnull hhead
    have hspec := enqueue_spec st stubId hstubm
      (by rw [hhead]; exact htm)
      (by rw [hhead]; exact htail)
    have hlink := hspec.2.2.1
    rw [hhead] at hlink
    refine ⟨{ (enqueue st stubId).1 with
        tail_readiness := stubId }, ?_, hspec.1, ?_, rfl⟩
    · simp only [dequeue, dequeueRest]
      rw [if_neg htail]
      rw [show (getN st.heap st.tail_readiness).next_readiness = none from hnull]
      have hne2 : ¬ st.head_readiness ≠ st.tail_readiness := by
        rw [hhead]
        exact fun hc => hc rfl
      rw [if_neg hne2]
      rw [show (getN (enqueue st stubId).1.heap
          st.tail_readiness).next_readiness = some stubId from by
        rw [hlink]]
    · rw [hlink]

/-- A concrete state in the step-5 configuration: the consumer tail is
node 1, its queue link is null, and the producer head equals the tail. -/
def stSep : St Nat Nat :=
  { heap := [(stubId, stubNode4),
             (1, { future := some (Comp.pend false (Comp.ready false 0)),
                   next_all := none, prev_all := none,
                   next_readiness := none, state := QUEUED 4 ||| 1 })]
    nextId := 2
    len := 1
    head_all := some 1
    tail_readiness := 1
    head_readiness := 1
    ref_count := 1
    inner_alive := true }

/-- Witness for C4 on the concrete state `stSep`. -/
theorem C4_witness :
    ((1 : Nat) ≠ stubId ∧
      (getN ({ (enqueue stSep stubId).1 with
          tail_readiness := stubId }).heap 1).next_readiness
        = some ({ (enqueue stSep stubId).1 with
          tail_readiness := stubId }).tail_readiness ∧
      ({ (enqueue stSep stubId).1 with
          tail_readiness := stubId }).tail_readiness ≠ 1) ∧
    (∃ st2, dequeue stSep = (st2, Dq.Data stSep.tail_readiness) ∧
      st2.head_readiness = stubId ∧
      (getN st2.heap stSep.tail_readiness).next_readiness = some stubId ∧
      st2.tail_readiness = stubId) := by
  have hself : ∀ i nd, hfind stSep.heap i = some nd →
      nd.next_readiness ≠ some i := by
    intro i nd h
    by_cases h0 : i = 0
    · subst h0
      rw [show hfind stSep.heap 0 = some stubNode4 from rfl] at h
      rw [← Option.some.inj h]
      decide
    · by_cases h1 : i = 1
      · subst h1
        rw [show hfind stSep.heap 1 = some
          { future := some (Comp.pend false (Comp.ready false 0)),
            next_all := none, prev_all := none,
            next_readiness := none, state := QUEUED 4 ||| 1 } from rfl] at h
        rw [← Option.some.inj h]
        decide
      · have hn : hfind stSep.heap i = none := by
          simp only [stSep, hfind]
          rw [if_neg (fun hh => h0 (by simpa [stubId] using hh.symm)),
            if_neg (fun hh => h1 hh.symm)]
        rw [hn] at h
        cases h
  have h := C4_dequeue stSep (by decide) hself
  exact ⟨h.1 _ 1 (by decide),
    h.2 (by decide) (by decide) (by decide) (by decide) (by decide)⟩

theorem pollIter_error_msg {V E : Type} (w : Nat) (st : St V E) (m : String)
    (h : pollIter w st = Except.error m) :
    m = assertLinksMsg ∨ m = assertFlagMsg := by
  simp only [pollIter] at h
  split at h
  · split at h <;> cases h
  · cases h
  · rename_i st1 n hdq
    split at h
    · rename_i hfut
      split at h
      · split at h
        · cases h
        · rename_i m2 hrel
          cases h
          exact absurd hrel (release_no_error_of_future_none w st1 n hfut _)
      · cases h
        left
        rfl
    · split at h
      · split at h
        · cases h
        · split at h
          · cases h
          · rename_i m2 hrel
            cases h
            exact absurd hrel (release_node_never_errors w _ n _)
        · split at h
          · cases h
          · rename_i m2 hrel
            cases h
            exact absurd hrel (release_node_never_errors w _ n _)
      · cases h
        right
        rfl

theorem pollLoop_error_msg {V E : Type} (w fuel : Nat) (st : St V E) (m : String)
    (h : pollLoop w fuel st = Except.error m) :
    m = assertLinksMsg ∨ m = assertFlagMsg := by
  induction fuel generalizing st with
  | zero => cases h
  | succ f ih =>
    simp only [pollLoop] at h
    split at h
    · cases h
    · split at h
      · cases h
      · rename_i m2 hloop
        cases h
        exact ih _ hloop
    · rename_i m2 hiter
      cases h
      exact pollIter_error_msg w _ _ hiter

theorem poll_error_msg {V E : Type} (w fuel : Nat) (st : St V E) (m : String)
    (h : poll w fuel st = Except.error m) :
    m = assertLinksMsg ∨ m = assertFlagMsg := by
  simp only [poll] at h
  split at h
  · cases h
  · rename_i m2 hloop
    cases h
    exact pollLoop_error_msg w fuel _ _ hloop

theorem dropAll_error_msg {V E : Type} (w fuel : Nat) (st : St V E) (m : String)
    (h : dropAll w fuel st = Except.error m) : m = fuelMsg := by
  induction fuel generalizing st with
  | zero =>
    simp only [dropAll] at h
    split at h
    · cases h
    · cases h
      rfl
  | succ f ih =>
    simp only [dropAll] at h
    split at h
    · cases h
    · rename_i hd hhd
      split at h
      · split at h
        · cases h
        · rename_i m2 hrest
          cases h
          exact ih _ hrest
      · rename_i m2 hrel
        cases h
        exact absurd hrel (release_node_never_errors w _ hd _)

theorem dropFU_error_msg {V E : Type} (w fuel : Nat) (st : St V E) (m : String)
    (h : dropFU w fuel st = Except.error m) : m = fuelMsg := by
  simp only [dropFU] at h
  split at h
  · cases h
  · rename_i m2 hall
    cases h
    exact dropAll_error_msg w fuel _ _ hall

theorem runOp_error_msg {V E : Type} (w : Nat) (st : St V E) (op : Op V E)
    (m : String) (h : runOp w st op = Except.error m) :
    m = assertLinksMsg ∨ m = assertFlagMsg ∨ m = fuelMsg := by
  cases op with
  | push c => cases h
  | poll fuel =>
    simp only [runOp] at h
    split at h
    · cases h
    · rename_i m2 hp
      cases h
      rcases poll_error_msg w fuel st _ hp with h1 | h1
      · exact Or.inl h1
      · exact Or.inr (Or.inl h1)
  | destroy fuel =>
    simp only [runOp] at h
    split at h
    · cases h
    · rename_i m2 hp
      cases h
      exact Or.inr (Or.inr (dropFU_error_msg w fuel st _ hp))

theorem foldl_runOp_no_drop {V E : Type} (w : Nat) (ops : List (Op V E)) :
    ∀ st : St V E, List.foldlM (runOp w) st ops ≠ Except.error dropMsg := by
  induction ops with
  | nil => intro st h; cases h
  | cons a l ih =>
    intro st h
    rw [List.foldlM_cons] at h
    cases hop : runOp w st a with
    | ok st1 =>
      rw [hop] at h
      exact ih st1 h
    | error m =>
      rw [hop] at h
      have hm : m = dropMsg := by
        have : Except.error m = (Except.error dropMsg : Except String (St V E)) := h
        exact Except.error.inj this
      rcases runOp_error_msg w st a m hop with h1 | h1 | h1 <;>
        rw [h1] at hm <;> exact absurd hm.symm (by decide)

/-- **C6.** The node-release procedure (`release`, source lines 578-592)
performs `old = state.fetch_sub(1, SeqCst)` and returns without freeing
unless `old & !QUEUED == 1`; when it does free, it first aborts (error
`dropMsg`) if the computation slot is still occupied; and in every
single-consumer execution built from create, submit, poll and destroy
operations that abort branch is unreachable: `run` never returns the
`dropMsg` error, because the consumer always clears the computation slot
before dropping the owning reference. -/
theorem C6_release_safety {V E : Type} (w : Nat) :
    (∀ (st : St V E) (n : Nat), (hfind st.heap n).isSome →
      ((getN st.heap n).state &&& NOT_QUEUED w ≠ 1 →
        release w st n = Except.ok (setN st n
          { getN st.heap n with
            state := ((getN st.heap n).state + USIZE_MAX w) % 2 ^ w },
          [Ev.decRef n ((getN st.heap n).state)])) ∧
      ((getN st.heap n).state &&& NOT_QUEUED w = 1 →
        (getN st.heap n).future.isSome →
        release w st n = Except.error dropMsg) ∧
      ((getN st.heap n).state &&& NOT_QUEUED w = 1 →
        (getN st.heap n).future = none →
        release w st n = Except.ok ({ st with heap := hremove st.heap n },
          [Ev.decRef n ((getN st.heap n).state), Ev.freeNode n]))) ∧
    (∀ ops : List (Op V E), run w ops ≠ Except.error dropMsg) := by
  constructor
  · intro st n hn
    exact release_spec w st n hn
  · intro ops
    exact foldl_runOp_no_drop w ops (newFU w V E)

/-- Closed instance of `C6_release_safety`: on a concrete queued node
whose fused word reads `QUEUED | 1` the free path would run and the
occupied slot makes `release` abort, and a concrete
push/poll/destroy execution never reaches that abort. -/
theorem C6_witness :
    ((hfind stQ.heap 1).isSome ∧
      (getN stQ.heap 1).state &&& NOT_QUEUED 4 = 1 ∧
      (getN stQ.heap 1).future.isSome) ∧
    release 4 stQ 1 = Except.error dropMsg ∧
    run 4 ([Op.push (Comp.ready false 7), Op.poll 4, Op.destroy 4]
      : List (Op Nat Nat)) ≠ Except.error dropMsg := by
  refine ⟨by decide, ?_, ?_⟩
  · exact (((@C6_release_safety Nat Nat 4).1 stQ 1 (by decide)).2.1
      (by decide) (by decide))
  · exact (@C6_release_safety Nat Nat 4).2 _

theorem release_future_none {V E : Type} (w : Nat) (st : St V E) (n : Nat)
    (hf : (getN st.heap n).future = none) :
    ∀ q, release w st n = Except.ok q → (getN q.1.heap n).future = none := by
  intro q hq
  simp only [release, setN_heap] at hq
  split at hq
  · cases hq
    exact getN_hset_fut _ _ _ _ hf
      (show (Node.future { getN st.heap n with
        state := ((getN st.heap n).state + USIZE_MAX w) % 2 ^ w }) = none from hf)
  · split at hq
    · cases hq
    · cases hq
      show (getN (hremove _ n) n).future = none
      rw [getN, hfind_hremove, if_pos rfl]
      rfl

theorem release_isSome_of_rc_ne {V E : Type} (w : Nat) (st : St V E) (n : Nat)
    (hrc : (getN st.heap n).state &&& NOT_QUEUED w ≠ 1) :
    ∀ q, release w st n = Except.ok q →
      (hfind q.1.heap n).isSome = (hfind st.heap n).isSome ∧
      q.2 = [Ev.decRef n ((getN st.heap n).state)] := by
  intro q hq
  simp only [release, setN_heap] at hq
  rw [if_pos hrc] at hq
  cases hq
  exact ⟨hfind_hset_isSome, rfl⟩

theorem release_node_future_none {V E : Type} (w : Nat) (st : St V E) (n : Nat) :
    ∀ q, release_node w st n = Except.ok q → (getN q.1.heap n).future = none := by
  have hst2 : setN (setN st n
        { getN st.heap n with state := (getN st.heap n).state ||| QUEUED w }) n
      { getN (setN st n
          { getN st.heap n with
            state := (getN st.heap n).state ||| QUEUED w }).heap n with
        future := none }
      = setN st n { getN st.heap n with
          state := (getN st.heap n).state ||| QUEUED w, future := none } := by
    cases hm : hfind st.heap n with
    | none =>
      simp only [setN, setN_heap]
      rw [hset_of_missing hm, hset_of_missing hm, hset_of_missing hm]
    | some x =>
      simp only [setN, setN_heap]
      rw [hset_hset, getN_hset_self (show (hfind st.heap n).isSome from by simp [hm])]
  set A : St V E := setN st n { getN st.heap n with
      state := (getN st.heap n).state ||| QUEUED w, future := none } with hA
  have hfutA : (getN A.heap n).future = none := by
    rw [hA, setN_heap]
    cases hm : hfind st.heap n with
    | none => rw [hset_of_missing hm, getN, hm]; rfl
    | some x => rw [getN_hset_self (show (hfind st.heap n).isSome from by simp [hm])]
  have hfutU : (getN (unlink A n).1.heap n).future = none :=
    unlink_future_none A n hfutA
  intro q hq
  simp only [release_node] at hq
  rw [hst2] at hq
  by_cases hqf : (getN st.heap n).state &&& QUEUED w = 0
  · rw [if_pos hqf] at hq
    cases hrel : release w (unlink A n).1 n with
    | ok r =>
      rw [hrel] at hq
      cases hq
      exact release_future_none w _ n hfutU r hrel
    | error m2 =>
      exact absurd hrel (release_no_error_of_future_none w _ n hfutU m2)
  · rw [if_neg hqf] at hq
    cases hq
    exact hfutU

theorem release_node_keeps_of_flag {V E : Type} (w : Nat) (st : St V E) (n : Nat)
    (hn : (hfind st.heap n).isSome)
    (hqf : (getN st.heap n).state &&& QUEUED w ≠ 0) :
    ∀ q, release_node w st n = Except.ok q → (hfind q.1.heap n).isSome := by
  intro q hq
  simp only [release_node] at hq
  rw [if_neg hqf] at hq
  cases hq
  rw [unlink_isSome]
  simp only [setN_heap, hfind_hset_isSome]
  exact hn

theorem release_node_keeps_of_refs {V E : Type} (w : Nat) (hw : 0 < w)
    (st : St V E) (n : Nat)
    (hn : (hfind st.heap n).isSome)
    (hnn : (getN st.heap n).next_all ≠ some n)
    (hpn : (getN st.heap n).prev_all ≠ some n)
    (hqf : (getN st.heap n).state &&& QUEUED w = 0)
    (hrc : (getN st.heap n).state &&& NOT_QUEUED w ≠ 1) :
    ∀ q, release_node w st n = Except.ok q → (hfind q.1.heap n).isSome := by
  have hst2 : setN (setN st n
        { getN st.heap n with state := (getN st.heap n).state ||| QUEUED w }) n
      { getN (setN st n
          { getN st.heap n with
            state := (getN st.heap n).state ||| QUEUED w }).heap n with
        future := none }
      = setN st n { getN st.heap n with
          state := (getN st.heap n).state ||| QUEUED w, future := none } := by
    simp only [setN, setN_heap]
    rw [hset_hset]
    rw [getN_hset_self hn]
  set A : St V E := setN st n { getN st.heap n with
      state := (getN st.heap n).state ||| QUEUED w, future := none } with hA
  have hn2 : (hfind A.heap n).isSome := by
    rw [hA, setN_heap, hfind_hset_isSome]; exact hn
  have hg2 : getN A.heap n
      = { getN st.heap n with
          state := (getN st.heap n).state ||| QUEUED w, future := none } := by
    rw [hA, setN_heap]; exact getN_hset_self hn
  have huself := unlink_self A n hn2 (by rw [hg2]; exact hnn) (by rw [hg2]; exact hpn)
  rw [hg2] at huself
  have hstate : (getN (unlink A n).1.heap n).state
      = (getN st.heap n).state ||| QUEUED w := by rw [huself]
  have hrcU : (getN (unlink A n).1.heap n).state &&& NOT_QUEUED w ≠ 1 := by
    rw [hstate, rc_of_or w hw]
    exact hrc
  intro q hq
  simp only [release_node] at hq
  rw [hst2] at hq
  rw [if_pos hqf] at hq
  cases hrel : release w (unlink A n).1 n with
  | ok r =>
    rw [hrel] at hq
    cases hq
    have hkeep := (release_isSome_of_rc_ne w _ n hrcU r hrel).1
    rw [hkeep, unlink_isSome]
    exact hn2
  | error m2 =>
    rw [hrel] at hq
    cases hq

theorem release_fields_rc {V E : Type} (w : Nat) (st : St V E) (n : Nat) :
    ∀ q, release w st n = Except.ok q →
      q.1.ref_count = st.ref_count ∧ q.1.inner_alive = st.inner_alive ∧
      q.1.head_all = st.head_all := by
  intro q hq
  simp only [release] at hq
  split at hq
  · cases hq
    exact ⟨rfl, rfl, rfl⟩
  · split at hq
    · cases hq
    · cases hq
      exact ⟨rfl, rfl, rfl⟩

theorem release_node_fields {V E : Type} (w : Nat) (st : St V E) (n : Nat) :
    ∀ q, release_node w st n = Except.ok q →
      q.1.ref_count = st.ref_count ∧ q.1.inner_alive = st.inner_alive := by
  intro q hq
  simp only [release_node] at hq
  split at hq
  · split at hq
    · rename_i r hrel
      cases hq
      have h1 := release_fields_rc w _ n r hrel
      constructor
      · rw [h1.1, (unlink_fields _ n).2.2.2.2.1]
        rfl
      · rw [h1.2.1, (unlink_fields _ n).2.2.2.2.2]
        rfl
    · cases hq
  · cases hq
    constructor
    · rw [(unlink_fields _ n).2.2.2.2.1]
      rfl
    · rw [(unlink_fields _ n).2.2.2.2.2]
      rfl

theorem release_evs_clean {V E : Type} (w : Nat) (st : St V E) (n : Nat) :
    ∀ q, release w st n = Except.ok q →
      (∀ o, Ev.dropInnerRef o ∉ q.2) ∧ Ev.freeInner ∉ q.2 := by
  intro q hq
  simp only [release] at hq
  split at hq
  · cases hq
    exact ⟨fun o => by simp, by simp⟩
  · split at hq
    · cases hq
    · cases hq
      exact ⟨fun o => by simp, by simp⟩

theorem release_node_evs_clean {V E : Type} (w : Nat) (st : St V E) (n : Nat) :
    ∀ q, release_node w st n = Except.ok q →
      (∀ o, Ev.dropInnerRef o ∉ q.2) ∧ Ev.freeInner ∉ q.2 := by
  intro q hq
  simp only [release_node] at hq
  split at hq
  · split at hq
    · rename_i r hrel
      cases hq
      have hc := release_evs_clean w _ n r hrel
      constructor
      · intro o hmem
        rw [unlink_evs] at hmem
        simp only [List.mem_cons, List.mem_append, List.mem_singleton,
          List.mem_nil_iff, or_false] at hmem
        rcases hmem with h | h | h | h
        · exact Ev.noConfusion h
        · exact Ev.noConfusion h
        · exact Ev.noConfusion h
        · exact hc.1 o h
      · intro hmem
        rw [unlink_evs] at hmem
        simp only [List.mem_cons, List.mem_append, List.mem_singleton,
          List.mem_nil_iff, or_false] at hmem
        rcases hmem with h | h | h | h
        · exact Ev.noConfusion h
        · exact Ev.noConfusion h
        · exact Ev.noConfusion h
        · exact hc.2 h
    · cases hq
  · cases hq
    constructor
    · intro o hmem
      rw [unlink_evs] at hmem
      simp only [List.mem_cons, List.mem_singleton, List.mem_nil_iff,
        or_false] at hmem
      rcases hmem with h | h | h
      · exact Ev.noConfusion h
      · exact Ev.noConfusion h
      · exact Ev.noConfusion h
    · intro hmem
      rw [unlink_evs] at hmem
      simp only [List.mem_cons, List.mem_singleton, List.mem_nil_iff,
        or_false] at hmem
      rcases hmem with h | h | h
      · exact Ev.noConfusion h
      · exact Ev.noConfusion h
      · exact Ev.noConfusion h

theorem dropAll_ok_facts {V E : Type} (w : Nat) :
    ∀ (f : Nat) (st st1 : St V E) (evs1 : List Ev),
      dropAll w f st = Except.ok (st1, evs1) →
      st1.head_all = none ∧ st1.ref_count = st.ref_count ∧
      st1.inner_alive = st.inner_alive ∧
      (∀ o, Ev.dropInnerRef o ∉ evs1) ∧ Ev.freeInner ∉ evs1 := by
  intro f
  induction f with
  | zero =>
    intro st st1 evs1 h
    simp only [dropAll] at h
    split at h
    · rename_i hhd
      cases h
      exact ⟨hhd, rfl, rfl, fun o => by simp, by simp⟩
    · cases h
  | succ f ih =>
    intro st st1 evs1 h
    simp only [dropAll] at h
    split at h
    · rename_i hhd
      cases h
      exact ⟨hhd, rfl, rfl, fun o => by simp, by simp⟩
    · rename_i hd hhd
      split at h
      · rename_i stR evsR hrel
        split at h
        · rename_i st2 evs2 hrest
          cases h
          have hrec := ih stR _ _ hrest
          have hflds := release_node_fields w st hd (stR, evsR) hrel
          have hclean := release_node_evs_clean w st hd (stR, evsR) hrel
          refine ⟨hrec.1, ?_, ?_, ?_, ?_⟩
          · rw [hrec.2.1]
            exact hflds.1
          · rw [hrec.2.2.1]
            exact hflds.2
          · intro o hmem
            rcases List.mem_append.1 hmem with h2 | h2
            · exact hclean.1 o h2
            · exact hrec.2.2.2.1 o h2
          · intro hmem
            rcases List.mem_append.1 hmem with h2 | h2
            · exact hclean.2 h2
            · exact hrec.2.2.2.2 h2
        · cases h
      · cases h

theorem drop_raw_spec {V E : Type} (w : Nat) (st : St V E) :
    (drop_raw w st).1.heap = st.heap ∧
    (drop_raw w st).1.head_all = st.head_all ∧
    (drop_raw w st).1.ref_count = (st.ref_count + USIZE_MAX w) % 2 ^ w ∧
    (drop_raw w st).1.inner_alive
      = (if st.ref_count = 1 then false else st.inner_alive) ∧
    (drop_raw w st).2 = Ev.dropInnerRef st.ref_count ::
      (if st.ref_count = 1 then [Ev.freeInner] else []) := by
  by_cases h1 : st.ref_count = 1 <;> simp [drop_raw, h1]

/-- **C9.** The destructor releases owner-set nodes until `head_all` is
null, and each iteration runs `release_node` on the head node: its
computation slot is dropped (the trace records `dropComp` and the slot
is empty afterwards), and a node whose `QUEUED` flag was already set at
release time, or whose reference count (in-flight notifier handles)
keeps `old & !QUEUED` away from 1, is not freed by the destructor
itself (conjunct 2).  The rest of the claim is false of the code: after
the loop the destructor drops the shared-head reference TWICE - once by
the explicit `drop_raw` call on source line 435 and once more by the
drop glue of the `inner : MyInner` field (`Drop for MyInner`, source
lines 470-476) - so the trace ends with two `dropInnerRef` events and
the reference count is decremented twice (conjunct 1), and a collection
whose shared head is still referenced by one in-flight notifier handle
(`ref_count = 2`) nevertheless ends with the shared head destroyed and
the count wrapped to zero (conjunct 3). -/
theorem C9_destructor {V E : Type} (w : Nat) :
    (∀ (fuel : Nat) (st st2 : St V E) (evs : List Ev),
      st.inner_alive = true →
      dropFU w fuel st = Except.ok (st2, evs) →
      ∃ st1 evs1, dropAll w fuel st = Except.ok (st1, evs1) ∧
        st1.head_all = none ∧
        (∀ o, Ev.dropInnerRef o ∉ evs1) ∧ Ev.freeInner ∉ evs1 ∧
        evs = evs1 ++
          (Ev.dropInnerRef st1.ref_count ::
            (if st1.ref_count = 1 then [Ev.freeInner] else [])) ++
          (Ev.dropInnerRef ((st1.ref_count + USIZE_MAX w) % 2 ^ w) ::
            (if (st1.ref_count + USIZE_MAX w) % 2 ^ w = 1
             then [Ev.freeInner] else [])) ∧
        st2.heap = st1.heap ∧ st2.head_all = none ∧
        st2.ref_count
          = ((st1.ref_count + USIZE_MAX w) % 2 ^ w + USIZE_MAX w) % 2 ^ w ∧
        (st2.inner_alive = false ↔ st1.ref_count = 1 ∨
          (st1.ref_count + USIZE_MAX w) % 2 ^ w = 1)) ∧
    (∀ (f : Nat) (st : St V E) (hd : Nat), 0 < w →
      st.head_all = some hd →
      (hfind st.heap hd).isSome →
      (getN st.heap hd).next_all ≠ some hd →
      (getN st.heap hd).prev_all ≠ some hd →
      ∃ stR evsR, release_node w st hd = Except.ok (stR, evsR) ∧
        dropAll w (f + 1) st =
          (match dropAll w f stR with
           | Except.ok (stz, evs2) => Except.ok (stz, evsR ++ evs2)
           | Except.error m2 => Except.error m2) ∧
        evsR = Ev.setQueued hd ((getN st.heap hd).state) :: Ev.dropComp hd ::
          Ev.unlinkN hd ::
          (if (getN st.heap hd).state &&& QUEUED w = 0 then
            Ev.decRef hd ((getN st.heap hd).state ||| QUEUED w) ::
            (if (getN st.heap hd).state &&& NOT_QUEUED w = 1
             then [Ev.freeNode hd] else [])
           else []) ∧
        (getN stR.heap hd).future = none ∧
        ((getN st.heap hd).state &&& QUEUED w ≠ 0 →
          (hfind stR.heap hd).isSome ∧ Ev.freeNode hd ∉ evsR) ∧
        ((getN st.heap hd).state &&& QUEUED w = 0 →
          (getN st.heap hd).state &&& NOT_QUEUED w ≠ 1 →
          (hfind stR.heap hd).isSome ∧ Ev.freeNode hd ∉ evsR)) ∧
    (∀ (fuel : Nat) (st st2 : St V E) (evs : List Ev), 0 < w →
      st.inner_alive = true → st.ref_count = 2 →
      dropFU w fuel st = Except.ok (st2, evs) →
      st2.inner_alive = false ∧ st2.ref_count = 0) := by
  refine ⟨?_, ?_, ?_⟩
  · intro fuel st st2 evs halive h
    simp only [dropFU] at h
    split at h
    · rename_i st1 evs1 hall
      cases h
      have hfacts := dropAll_ok_facts w fuel st st1 evs1 hall
      have halive1 : st1.inner_alive = true := by
        rw [hfacts.2.2.1]
        exact halive
      obtain ⟨hh1, hha1, hrc1, hia1, hev1⟩ := drop_raw_spec w st1
      obtain ⟨hh2, hha2, hrc2, hia2, hev2⟩ :=
        drop_raw_spec w (drop_raw w st1).1
      refine ⟨st1, evs1, hall, hfacts.1, hfacts.2.2.2.1, hfacts.2.2.2.2,
        ?_, ?_, ?_, ?_, ?_⟩
      · rw [hev2, hev1, hrc1]
      · rw [hh2, hh1]
      · rw [hha2, hha1, hfacts.1]
      · rw [hrc2, hrc1]
      · rw [hia2, hia1, hrc1, halive1]
        by_cases h2 : (st1.ref_count + USIZE_MAX w) % 2 ^ w = 1
        · rw [if_pos h2]
          simp [h2]
        · rw [if_neg h2]
          by_cases h1 : st1.ref_count = 1
          · rw [if_pos h1]
            simp [h1]
          · rw [if_neg h1]
            simp [h1, h2]
    · cases h
  · intro f st hd hw hhd hn hnn hpn
    obtain ⟨stR, h1, hfree, hkeep⟩ := release_node_spec w hw st hd hn hnn hpn
    refine ⟨stR, _, h1, ?_, rfl, ?_, ?_, ?_⟩
    · simp only [dropAll, hhd, h1]
    · exact release_node_future_none w st hd _ h1
    · intro hflag
      refine ⟨release_node_keeps_of_flag w st hd hn hflag _ h1, ?_⟩
      rw [if_neg hflag]
      simp
    · intro hflag hrc
      refine ⟨release_node_keeps_of_refs w hw st hd hn hnn hpn hflag hrc _ h1, ?_⟩
      rw [if_pos hflag, if_neg hrc]
      simp
  · intro fuel st st2 evs hw0 halive hrcst h
    simp only [dropFU] at h
    split at h
    · rename_i st1 evs1 hall
      cases h
      have hfacts := dropAll_ok_facts w fuel st st1 evs1 hall
      have hrcs : st1.ref_count = 2 := by
        rw [hfacts.2.1, hrcst]
      have h2w : 2 ≤ 2 ^ w := by
        calc 2 = 2 ^ 1 := rfl
        _ ≤ 2 ^ w := Nat.pow_le_pow_right (by omega) (by omega)
      have hM : USIZE_MAX w = 2 ^ w - 1 := rfl
      have hmid : (st1.ref_count + USIZE_MAX w) % 2 ^ w = 1 := by
        rw [hrcs, hM]
        have he : 2 + (2 ^ w - 1) = 2 ^ w + 1 := by omega
        rw [he, Nat.add_mod_left]
        exact Nat.mod_eq_of_lt (by omega)
      obtain ⟨hh1, hha1, hrc1, hia1, hev1⟩ := drop_raw_spec w st1
      obtain ⟨hh2, hha2, hrc2, hia2, hev2⟩ :=
        drop_raw_spec w (drop_raw w st1).1
      constructor
      · rw [hia2, hrc1, if_pos hmid]
      · rw [hrc2, hrc1, hmid, hM]
        have he2 : 1 + (2 ^ w - 1) = 2 ^ w := by omega
        rw [he2, Nat.mod_self]
    · cases h

/-- A concrete collection whose shared head is also referenced by one
in-flight notifier handle: reference count 2. -/
def stH : St Nat Nat := { stQ with ref_count := 2 }

/-- Closed instance of `C9_destructor`: destroying the concrete
collection `stQ` (one owner node whose `QUEUED` flag is set) ends with a
null owner list, two inner-reference drops and the shared head freed;
the per-iteration part shows the queued node's slot is cleared but the
node itself is not freed; and destroying `stH` (same collection with an
outstanding notifier-handle reference, count 2) still frees the shared
head, wrapping the count to zero. -/
theorem C9_witness :
    (stQ.inner_alive = true ∧
      ∃ st2 evs, dropFU 4 2 stQ = Except.ok (st2, evs) ∧
        ∃ st1 evs1, dropAll 4 2 stQ = Except.ok (st1, evs1) ∧
          st1.head_all = none ∧ Ev.freeInner ∉ evs1 ∧
          (st2.inner_alive = false ↔ st1.ref_count = 1 ∨
            (st1.ref_count + USIZE_MAX 4) % 2 ^ 4 = 1)) ∧
    (stQ.head_all = some 1 ∧ (getN stQ.heap 1).state &&& QUEUED 4 ≠ 0 ∧
      ∃ stR evsR, release_node 4 stQ 1 = Except.ok (stR, evsR) ∧
        (getN stR.heap 1).future = none ∧
        (hfind stR.heap 1).isSome ∧ Ev.freeNode 1 ∉ evsR) ∧
    (stH.inner_alive = true ∧ stH.ref_count = 2 ∧
      ∃ st2 evs, dropFU 4 2 stH = Except.ok (st2, evs) ∧
        st2.inner_alive = false ∧ st2.ref_count = 0) := by
  refine ⟨⟨rfl, ?_⟩, ?_, ⟨rfl, rfl, ?_⟩⟩
  · rcases hEx : dropFU 4 2 stQ with m | p
    · have hm := dropFU_error_msg 4 2 stQ m hEx
      rw [hm] at hEx
      exact absurd hEx (by decide)
    · rcases p with ⟨a, b⟩
      refine ⟨a, b, rfl, ?_⟩
      obtain ⟨st1, evs1, hall, hhead, hdi, hfi, hevs, hheap, hh2, hrc2, hiff⟩ :=
        (@C9_destructor Nat Nat 4).1 2 stQ a b rfl hEx
      exact ⟨st1, evs1, hall, hhead, hfi, hiff⟩
  · refine ⟨rfl, by decide, ?_⟩
    obtain ⟨stR, evsR, h1, hunf, htr, hfut, hflag, hrefs⟩ :=
      (@C9_destructor Nat Nat 4).2.1 0 stQ 1 (by decide) rfl (by decide)
        (by decide) (by decide)
    have hf := hflag (by decide)
    exact ⟨stR, evsR, h1, hfut, hf.1, hf.2⟩
  · rcases hEx : dropFU 4 2 stH with m | p
    · have hm := dropFU_error_msg 4 2 stH m hEx
      rw [hm] at hEx
      exact absurd hEx (by decide)
    · rcases p with ⟨a, b⟩
      refine ⟨a, b, rfl, ?_⟩
      exact (@C9_destructor Nat Nat 4).2.2 2 stH a b (by decide) rfl rfl hEx

def NChain {F : Type} (h : Heap F) : Option Nat → Option Nat → List Nat → Prop
  | _, cur, [] => cur = none
  | prev, cur, i :: L =>
    cur = some i ∧ (hfind h i).isSome ∧ (getN h i).prev_all = prev ∧
    NChain h (some i) (getN h i).next_all L

theorem NChain_mem_isSome {F : Type} (h : Heap F) :
    ∀ (L : List Nat) (prev cur : Option Nat), NChain h prev cur L →
      ∀ i, i ∈ L → (hfind h i).isSome := by
  intro L
  induction L with
  | nil => intro prev cur hch i hi; cases hi
  | cons a L ih =>
    intro prev cur hch i hi
    rcases List.mem_cons.1 hi with h1 | h1
    · subst h1
      exact hch.2.1
    · exact ih _ _ hch.2.2.2 i h1

theorem NChain_ownerListAux {F : Type} (h : Heap F) :
    ∀ (L : List Nat) (prev cur : Option Nat) (f : Nat), NChain h prev cur L →
      L.length < f → ownerListAux h f cur = L := by
  intro L
  induction L with
  | nil =>
    intro prev cur f hch hf
    rcases f with _ | f
    · omega
    · rw [hch]
      rfl
  | cons a L ih =>
    intro prev cur f hch hf
    rcases f with _ | f
    · omega
    · rw [hch.1]
      show a :: ownerListAux h f (getN h a).next_all = a :: L
      rw [ih _ _ f hch.2.2.2 (by simpa using Nat.lt_of_succ_lt_succ hf)]

theorem NChain_congr_mem {F : Type} (h h2 : Heap F) :
    ∀ (L : List Nat) (prev cur : Option Nat),
      (∀ i, i ∈ L → hfind h2 i = hfind h i) →
      NChain h prev cur L → NChain h2 prev cur L := by
  intro L
  induction L with
  | nil => intro prev cur hag hch; exact hch
  | cons a L ih =>
    intro prev cur hag hch
    have hga : getN h2 a = getN h a := by
      rw [getN, getN, hag a (List.mem_cons_self a L)]
    refine ⟨hch.1, ?_, ?_, ?_⟩
    · rw [hag a (List.mem_cons_self a L)]
      exact hch.2.1
    · rw [hga]
      exact hch.2.2.1
    · rw [hga]
      exact ih _ _ (fun i hi => hag i (List.mem_cons_of_mem a hi)) hch.2.2.2

theorem NChain_cur_mem {F : Type} (h : Heap F) (L : List Nat)
    (prev cur : Option Nat) (hch : NChain h prev cur L) (k : Nat)
    (hk : cur = some k) : k ∈ L := by
  cases L with
  | nil => rw [hch] at hk; cases hk
  | cons a L =>
    have : a = k := by
      have := hch.1.symm.trans hk
      exact Option.some.inj this
    rw [← this]
    exact List.mem_cons_self a L

theorem NChain_next_closed {F : Type} (h : Heap F) :
    ∀ (L : List Nat) (prev cur : Option Nat), NChain h prev cur L →
      ∀ k, k ∈ L → (getN h k).next_all = none ∨
        ∃ j, j ∈ L ∧ (getN h k).next_all = some j := by
  intro L
  induction L with
  | nil => intro prev cur hch k hk; cases hk
  | cons a L ih =>
    intro prev cur hch k hk
    rcases List.mem_cons.1 hk with h1 | h1
    · subst h1
      cases hnx : (getN h k).next_all with
      | none => exact Or.inl rfl
      | some j =>
        refine Or.inr ⟨j, ?_, rfl⟩
        exact List.mem_cons_of_mem k
          (NChain_cur_mem h L _ _ (hnx ▸ hch.2.2.2) j rfl)
    · rcases ih _ _ hch.2.2.2 k h1 with h2 | ⟨j, hj, hj2⟩
      · exact Or.inl h2
      · exact Or.inr ⟨j, List.mem_cons_of_mem a hj, hj2⟩

theorem NChain_prev_mem {F : Type} (h : Heap F) (n : Nat) (B : List Nat) :
    ∀ (A : List Nat) (prev cur : Option Nat),
      NChain h prev cur (A ++ n :: B) →
      (A = [] ∧ cur = some n ∧ (getN h n).prev_all = prev) ∨
      ∃ pv, pv ∈ A ∧ (getN h n).prev_all = some pv := by
  intro A
  induction A with
  | nil =>
    intro prev cur hch
    exact Or.inl ⟨rfl, hch.1, hch.2.2.1⟩
  | cons a A ih =>
    intro prev cur hch
    rcases ih _ _ hch.2.2.2 with ⟨h1, h2, h3⟩ | ⟨pv, hpv, hpv2⟩
    · exact Or.inr ⟨a, List.mem_cons_self a A, h3⟩
    · exact Or.inr ⟨pv, List.mem_cons_of_mem a hpv, hpv2⟩

theorem NChain_sub {F : Type} (h : Heap F) (n : Nat) (B : List Nat) :
    ∀ (A : List Nat) (prev cur : Option Nat),
      NChain h prev cur (A ++ n :: B) →
      (hfind h n).isSome ∧ NChain h (some n) (getN h n).next_all B := by
  intro A
  induction A with
  | nil =>
    intro prev cur hch
    exact ⟨hch.2.1, hch.2.2.2⟩
  | cons a A ih =>
    intro prev cur hch
    exact ih _ _ hch.2.2.2

theorem hremove_length_le {F : Type} (i : Nat) :
    ∀ h : Heap F, (hremove h i).length ≤ h.length := by
  intro h
  induction h with
  | nil => simp [hremove]
  | cons p t ih =>
    show (if p.1 = i then hremove t i else (p.1, p.2) :: hremove t i).length
      ≤ t.length + 1
    by_cases hp : p.1 = i
    · rw [if_pos hp]
      omega
    · rw [if_neg hp]
      simpa using ih

theorem hremove_length_lt {F : Type} (i : Nat) :
    ∀ h : Heap F, (hfind h i).isSome → (hremove h i).length < h.length := by
  intro h
  induction h with
  | nil => intro hx; simp [hfind] at hx
  | cons p t ih =>
    intro hx
    show (if p.1 = i then hremove t i else (p.1, p.2) :: hremove t i).length
      < t.length + 1
    by_cases hp : p.1 = i
    · rw [if_pos hp]
      have := hremove_length_le i t
      omega
    · rw [if_neg hp]
      have hx2 : (hfind t i).isSome := by
        have : hfind ((p.1, p.2) :: t) i = hfind t i := by
          show (if p.1 = i then some p.2 else hfind t i) = hfind t i
          rw [if_neg hp]
        rw [show ((p.1, p.2) : Nat × Node F) = p from rfl] at this
        rw [← this]
        exact hx
      have := ih hx2
      simpa using Nat.succ_lt_succ this

theorem nodup_keys_length {F : Type} :
    ∀ (L : List Nat) (h : Heap F), L.Nodup →
      (∀ i, i ∈ L → (hfind h i).isSome) → L.length ≤ h.length := by
  intro L
  induction L with
  | nil => intro h hnd hmem; simp
  | cons a L ih =>
    intro h hnd hmem
    have ha : (hfind h a).isSome := hmem a (List.mem_cons_self a L)
    have hlt := hremove_length_lt a h ha
    have hmem2 : ∀ i, i ∈ L → (hfind (hremove h a) i).isSome := by
      intro i hi
      rw [hfind_hremove, if_neg
        (fun hc => (List.nodup_cons.1 hnd).1 (show a ∈ L by rw [← hc]; exact hi))]
      exact hmem i (List.mem_cons_of_mem a hi)
    have := ih (hremove h a) (List.nodup_cons.1 hnd).2 hmem2
    simp only [List.length_cons]
    omega

theorem ownerList_of_NChain {V E : Type} (st : St V E) (L : List Nat)
    (hch : NChain st.heap none st.head_all L) (hnd : L.Nodup) :
    ownerList st = L := by
  have hb := nodup_keys_length L st.heap hnd
    (NChain_mem_isSome st.heap L none st.head_all hch)
  exact NChain_ownerListAux st.heap L none st.head_all (st.heap.length + 1)
    hch (by omega)

def InvO {V E : Type} (w : Nat) (st : St V E) : Prop :=
  ∃ L : List Nat,
    NChain st.heap none st.head_all L ∧
    L.Nodup ∧
    st.len = L.length ∧
    (∀ i, i ∈ L → (getN st.heap i).future.isSome = true ∧
      (getN st.heap i).state &&& NOT_QUEUED w = 1) ∧
    (∀ i, (hfind st.heap i).isSome → i ∉ L →
      (getN st.heap i).next_all = none ∧ (getN st.heap i).prev_all = none ∧
      (getN st.heap i).future = none) ∧
    (∀ i, (hfind st.heap i).isSome → i < st.nextId)

def OwnerEq {V E : Type} (w : Nat) (st2 st : St V E) : Prop :=
  (∀ i, (hfind st2.heap i).isSome = (hfind st.heap i).isSome) ∧
  (∀ i, (getN st2.heap i).next_all = (getN st.heap i).next_all) ∧
  (∀ i, (getN st2.heap i).prev_all = (getN st.heap i).prev_all) ∧
  (∀ i, (getN st2.heap i).future.isSome = (getN st.heap i).future.isSome) ∧
  (∀ i, (getN st2.heap i).state &&& NOT_QUEUED w
    = (getN st.heap i).state &&& NOT_QUEUED w) ∧
  st2.head_all = st.head_all ∧ st2.len = st.len ∧ st2.nextId = st.nextId

theorem OwnerEq_refl {V E : Type} (w : Nat) (st : St V E) : OwnerEq w st st :=
  ⟨fun _ => rfl, fun _ => rfl, fun _ => rfl, fun _ => rfl, fun _ => rfl,
    rfl, rfl, rfl⟩

theorem OwnerEq_trans {V E : Type} (w : Nat) (st3 st2 st : St V E)
    (h1 : OwnerEq w st3 st2) (h2 : OwnerEq w st2 st) : OwnerEq w st3 st :=
  ⟨fun i => (h1.1 i).trans (h2.1 i),
   fun i => (h1.2.1 i).trans (h2.2.1 i),
   fun i => (h1.2.2.1 i).trans (h2.2.2.1 i),
   fun i => (h1.2.2.2.1 i).trans (h2.2.2.2.1 i),
   fun i => (h1.2.2.2.2.1 i).trans (h2.2.2.2.2.1 i),
   h1.2.2.2.2.2.1.trans h2.2.2.2.2.2.1,
   h1.2.2.2.2.2.2.1.trans h2.2.2.2.2.2.2.1,
   h1.2.2.2.2.2.2.2.trans h2.2.2.2.2.2.2.2⟩

theorem NChain_congr_fields {F : Type} (h h2 : Heap F)
    (hS : ∀ i, (hfind h2 i).isSome = (hfind h i).isSome)
    (hN : ∀ i, (getN h2 i).next_all = (getN h i).next_all)
    (hP : ∀ i, (getN h2 i).prev_all = (getN h i).prev_all) :
    ∀ (L : List Nat) (prev cur : Option Nat),
      NChain h prev cur L → NChain h2 prev cur L := by
  intro L
  induction L with
  | nil => intro prev cur hch; exact hch
  | cons a L ih =>
    intro prev cur hch
    refine ⟨hch.1, ?_, ?_, ?_⟩
    · rw [hS a]
      exact hch.2.1
    · rw [hP a]
      exact hch.2.2.1
    · rw [hN a]
      exact ih _ _ hch.2.2.2

theorem Inv_transfer {V E : Type} (w : Nat) (st2 st : St V E)
    (heq : OwnerEq w st2 st) (hInv : InvO w st) : InvO w st2 := by
  obtain ⟨L, hch, hnd, hlen, hmem, hnon, hid⟩ := hInv
  refine ⟨L, ?_, hnd, ?_, ?_, ?_, ?_⟩
  · rw [heq.2.2.2.2.2.1]
    exact NChain_congr_fields st.heap st2.heap heq.1 heq.2.1 heq.2.2.1 L
      none st.head_all hch
  · rw [heq.2.2.2.2.2.2.1]
    exact hlen
  · intro i hi
    rw [heq.2.2.2.1 i, heq.2.2.2.2.1 i]
    exact hmem i hi
  · intro i hS hi
    rw [heq.2.1 i, heq.2.2.1 i]
    have hf := heq.2.2.2.1 i
    have hold := hnon i (by rw [← heq.1 i]; exact hS) hi
    refine ⟨hold.1, hold.2.1, ?_⟩
    rw [hold.2.2] at hf
    exact Option.not_isSome_iff_eq_none.1 (by simp [hf])
  · intro i hS
    rw [heq.2.2.2.2.2.2.2]
    exact hid i (by rw [← heq.1 i]; exact hS)

theorem getN_hset_pres {F α : Type} (f : Node F → α) (h : Heap F) (k : Nat)
    (nd : Node F) (hnd : f nd = f (getN h k)) :
    ∀ i, f (getN (hset h k nd) i) = f (getN h i) := by
  intro i
  by_cases hik : i = k
  · subst hik
    cases hm : hfind h i with
    | none => rw [hset_of_missing hm]
    | some x =>
      rw [getN_hset_self (show (hfind h i).isSome from by simp [hm])]
      exact hnd
  · rw [getN_hset_ne hik]

theorem OwnerEq_setN {V E : Type} (w : Nat) (st : St V E) (k : Nat)
    (nd : Node (Comp V E))
    (hN : nd.next_all = (getN st.heap k).next_all)
    (hP : nd.prev_all = (getN st.heap k).prev_all)
    (hF : nd.future.isSome = (getN st.heap k).future.isSome)
    (hR : nd.state &&& NOT_QUEUED w = (getN st.heap k).state &&& NOT_QUEUED w) :
    OwnerEq w (setN st k nd) st := by
  refine ⟨?_, ?_, ?_, ?_, ?_, rfl, rfl, rfl⟩
  · intro i
    exact hfind_hset_isSome
  · exact getN_hset_pres (fun x => x.next_all) st.heap k nd hN
  · exact getN_hset_pres (fun x => x.prev_all) st.heap k nd hP
  · exact getN_hset_pres (fun x => x.future.isSome) st.heap k nd hF
  · exact getN_hset_pres (fun x => x.state &&& NOT_QUEUED w) st.heap k nd hR

theorem OwnerEq_of_fields {V E : Type} (w : Nat) (st2 st : St V E)
    (hh : st2.heap = st.heap) (hha : st2.head_all = st.head_all)
    (hl : st2.len = st.len) (hn : st2.nextId = st.nextId) :
    OwnerEq w st2 st :=
  ⟨fun i => by rw [hh], fun i => by rw [hh], fun i => by rw [hh],
   fun i => by rw [hh], fun i => by rw [hh], hha, hl, hn⟩

theorem OwnerEq_enqueue {V E : Type} (w : Nat) (st : St V E) (n : Nat) :
    OwnerEq w (enqueue st n).1 st := by
  simp only [enqueue]
  refine OwnerEq_trans w _ _ _ (OwnerEq_setN w _ _ _ rfl rfl rfl rfl)
    (OwnerEq_trans w _ (setN st n { getN st.heap n with next_readiness := none })
      st (OwnerEq_of_fields w _ _ rfl rfl rfl rfl)
      (OwnerEq_setN w st n { getN st.heap n with next_readiness := none }
        rfl rfl rfl rfl))

theorem OwnerEq_dequeueRest {V E : Type} (w : Nat) (st : St V E)
    (tail : Nat) (next : Option Nat) :
    OwnerEq w (dequeueRest st tail next).1 st := by
  rcases next with _ | nx
  · simp only [dequeueRest]
    split
    · exact OwnerEq_refl w st
    · split
      · refine OwnerEq_trans w _ _ _ ?_ (OwnerEq_enqueue w st stubId)
        exact OwnerEq_of_fields w _ _ rfl rfl rfl rfl
      · exact OwnerEq_enqueue w st stubId
  · exact OwnerEq_of_fields w _ _ rfl rfl rfl rfl

theorem OwnerEq_dequeue {V E : Type} (w : Nat) (st : St V E) :
    OwnerEq w (dequeue st).1 st := by
  simp only [dequeue]
  split
  · split
    · exact OwnerEq_refl w st
    · refine OwnerEq_trans w _ _ _ (OwnerEq_dequeueRest w _ _ _) ?_
      exact OwnerEq_of_fields w _ _ rfl rfl rfl rfl
  · exact OwnerEq_dequeueRest w st _ _

theorem OwnerEq_notify {V E : Type} (w : Nat) (hw : 0 < w) (st : St V E)
    (n : Nat) : OwnerEq w (notify w st n).1 st := by
  simp only [notify]
  split
  · exact OwnerEq_trans w _ _ _ (OwnerEq_enqueue w _ n)
      (OwnerEq_setN w st n _ rfl rfl rfl (rc_of_or w hw _))
  · exact OwnerEq_setN w st n _ rfl rfl rfl (rc_of_or w hw _)

theorem InvO_newFU {V E : Type} (w : Nat) : InvO w (newFU w V E) := by
  have hfi : ∀ i, hfind (newFU w V E).heap i
      = (if stubId = i then some (getN (newFU w V E).heap stubId) else none) :=
    fun i => rfl
  refine ⟨[], rfl, List.nodup_nil, rfl,
    fun i hi => absurd hi (List.not_mem_nil i), ?_, ?_⟩
  · intro i hS hi
    rw [getN, hfi i]
    by_cases hi0 : stubId = i
    · rw [if_pos hi0]
      exact ⟨rfl, rfl, rfl⟩
    · rw [hfi i, if_neg hi0] at hS
      cases hS
  · intro i hS
    by_cases hi0 : stubId = i
    · show i < 1
      rw [← hi0]
      decide
    · rw [hfi i, if_neg hi0] at hS
      cases hS

theorem InvO_push_aux {V E : Type} (w : Nat) (st : St V E) (hd : Nat)
    (L2 : List Nat) (nd ndHd : Node (Comp V E))
    (hch : NChain st.heap none (some hd) (hd :: L2))
    (hnd : (hd :: L2).Nodup)
    (hlen : st.len = (hd :: L2).length)
    (hmem : ∀ i, i ∈ hd :: L2 → (getN st.heap i).future.isSome = true ∧
      (getN st.heap i).state &&& NOT_QUEUED w = 1)
    (hnon : ∀ i, (hfind st.heap i).isSome → i ∉ hd :: L2 →
      (getN st.heap i).next_all = none ∧ (getN st.heap i).prev_all = none ∧
      (getN st.heap i).future = none)
    (hid : ∀ i, (hfind st.heap i).isSome → i < st.nextId)
    (hndN : nd.next_all = some hd) (hndP : nd.prev_all = none)
    (hndF : nd.future.isSome = true)
    (hndR : nd.state &&& NOT_QUEUED w = 1)
    (hHdP : ndHd.prev_all = some st.nextId)
    (hHdN : ndHd.next_all = (getN st.heap hd).next_all)
    (hHdF : ndHd.future = (getN st.heap hd).future)
    (hHdS : ndHd.state = (getN st.heap hd).state) :
    InvO w ({ st with
      heap := hset ((st.nextId, nd) :: st.heap) hd ndHd,
      nextId := st.nextId + 1,
      head_all := some st.nextId,
      len := st.len + 1 } : St V E) := by
  have hShd := hch.2.1
  have hhdlt := hid hd hShd
  have hpne : st.nextId ≠ hd := by omega
  have hmemP : ∀ i, i ∈ hd :: L2 → i < st.nextId := fun i hi =>
    hid i (NChain_mem_isSome st.heap _ none (some hd) hch i hi)
  have hfp : hfind (hset ((st.nextId, nd) :: st.heap) hd ndHd) st.nextId
      = some nd := by
    rw [hfind_hset_ne hpne]
    simp [hfind]
  have hgp : getN (hset ((st.nextId, nd) :: st.heap) hd ndHd) st.nextId = nd :=
    getN_of_hfind hfp
  have hconsS : (hfind ((st.nextId, nd) :: st.heap) hd).isSome := by
    rw [hfind_cons_ne st.heap st.nextId hd nd hpne]
    exact hShd
  have hghd : getN (hset ((st.nextId, nd) :: st.heap) hd ndHd) hd = ndHd :=
    getN_hset_self hconsS
  have hother : ∀ i, i ≠ st.nextId → i ≠ hd →
      hfind (hset ((st.nextId, nd) :: st.heap) hd ndHd) i = hfind st.heap i := by
    intro i h1 h2
    rw [hfind_hset_ne h2,
      hfind_cons_ne st.heap st.nextId i nd (fun hh => h1 hh.symm)]
  have hgoth : ∀ i, i ≠ st.nextId → i ≠ hd →
      getN (hset ((st.nextId, nd) :: st.heap) hd ndHd) i = getN st.heap i := by
    intro i h1 h2
    rw [getN, hother i h1 h2, ← getN]
  refine ⟨st.nextId :: hd :: L2, ?_, ?_, ?_, ?_, ?_, ?_⟩
  · refine ⟨rfl, ?_, ?_, ?_⟩
    · show (hfind (hset ((st.nextId, nd) :: st.heap) hd ndHd) st.nextId).isSome
        = true
      rw [hfp]
      rfl
    · show (getN (hset ((st.nextId, nd) :: st.heap) hd ndHd) st.nextId).prev_all
        = none
      rw [hgp]
      exact hndP
    · show NChain _ _
        (getN (hset ((st.nextId, nd) :: st.heap) hd ndHd) st.nextId).next_all _
      rw [hgp, hndN]
      refine ⟨rfl, ?_, ?_, ?_⟩
      · rw [hfind_hset_self (hfind_eq_getN hconsS)]
        rfl
      · rw [hghd]
        exact hHdP
      · rw [hghd, hHdN]
        refine NChain_congr_mem st.heap _ L2 (some hd)
          (getN st.heap hd).next_all ?_ hch.2.2.2
        intro i hi
        refine hother i ?_ ?_
        · have := hmemP i (List.mem_cons_of_mem hd hi)
          omega
        · exact fun hh => (List.nodup_cons.1 hnd).1 (by rw [← hh]; exact hi)
  · refine List.nodup_cons.2 ⟨?_, hnd⟩
    intro hmm
    have := hmemP st.nextId hmm
    omega
  · show st.len + 1 = (hd :: L2).length + 1
    rw [hlen]
  · intro i hi
    rcases List.mem_cons.1 hi with h1 | h1
    · subst h1
      rw [hgp]
      exact ⟨hndF, hndR⟩
    rcases List.mem_cons.1 h1 with h2 | h2
    · subst h2
      rw [hghd, hHdF, hHdS]
      exact hmem i (List.mem_cons_self i L2)
    · have hne1 : i ≠ st.nextId := by
        have := hmemP i h1
        omega
      have hne2 : i ≠ hd := fun hh => (List.nodup_cons.1 hnd).1
        (by rw [← hh]; exact h2)
      rw [hgoth i hne1 hne2]
      exact hmem i h1
  · intro i hS hi
    simp only [List.mem_cons, not_or] at hi
    have heq := hother i hi.1 hi.2.1
    rw [heq] at hS
    rw [hgoth i hi.1 hi.2.1]
    refine hnon i hS ?_
    intro hmm
    rcases List.mem_cons.1 hmm with h2 | h2
    · exact hi.2.1 h2
    · exact hi.2.2 h2
  · intro i hS
    show i < st.nextId + 1
    by_cases h1 : i = st.nextId
    · omega
    by_cases h2 : i = hd
    · omega
    · rw [hother i h1 h2] at hS
      have := hid i hS
      omega

theorem InvO_push_aux0 {V E : Type} (w : Nat) (st : St V E)
    (nd : Node (Comp V E))
    (hha : st.head_all = none)
    (hlen : st.len = 0)
    (hnon : ∀ i, (hfind st.heap i).isSome →
      (getN st.heap i).next_all = none ∧ (getN st.heap i).prev_all = none ∧
      (getN st.heap i).future = none)
    (hid : ∀ i, (hfind st.heap i).isSome → i < st.nextId)
    (hndN : nd.next_all = none) (hndP : nd.prev_all = none)
    (hndF : nd.future.isSome = true)
    (hndR : nd.state &&& NOT_QUEUED w = 1) :
    InvO w ({ st with
      heap := (st.nextId, nd) :: st.heap,
      nextId := st.nextId + 1,
      head_all := some st.nextId,
      len := st.len + 1 } : St V E) := by
  have hfp : hfind ((st.nextId, nd) :: st.heap) st.nextId = some nd := by
    simp [hfind]
  have hgp : getN ((st.nextId, nd) :: st.heap) st.nextId = nd :=
    getN_of_hfind hfp
  have hother : ∀ i, i ≠ st.nextId →
      hfind ((st.nextId, nd) :: st.heap) i = hfind st.heap i := by
    intro i h1
    exact hfind_cons_ne st.heap st.nextId i nd (fun hh => h1 hh.symm)
  have hgoth : ∀ i, i ≠ st.nextId →
      getN ((st.nextId, nd) :: st.heap) i = getN st.heap i := by
    intro i h1
    rw [getN, hother i h1, ← getN]
  refine ⟨[st.nextId], ?_, by simp, ?_, ?_, ?_, ?_⟩
  · refine ⟨rfl, ?_, ?_, ?_⟩
    · show (hfind ((st.nextId, nd) :: st.heap) st.nextId).isSome = true
      rw [hfp]
      rfl
    · show (getN ((st.nextId, nd) :: st.heap) st.nextId).prev_all = none
      rw [hgp]
      exact hndP
    · show NChain ((st.nextId, nd) :: st.heap) (some st.nextId)
        (getN ((st.nextId, nd) :: st.heap) st.nextId).next_all []
      rw [hgp, hndN]
      rfl
  · show st.len + 1 = 1
    omega
  · intro i hi
    have hip : i = st.nextId := by simpa using hi
    rw [hip, hgp]
    exact ⟨hndF, hndR⟩
  · intro i hS hi
    have hip : i ≠ st.nextId := by simpa using hi
    rw [hgoth i hip]
    rw [hother i hip] at hS
    exact hnon i hS
  · intro i hS
    show i < st.nextId + 1
    by_cases hip : i = st.nextId
    · omega
    · rw [hother i hip] at hS
      have := hid i hS
      omega

theorem InvO_push {V E : Type} (w : Nat) (hw : 1 < w) (st : St V E)
    (c : Comp V E) (hInv : InvO w st) :
    InvO w (push w st c).1 ∧ (push w st c).1.len = st.len + 1 := by
  obtain ⟨L, hch, hnd, hlen, hmem, hnon, hid⟩ := hInv
  rcases hha : st.head_all with _ | hd
  · have hL : L = [] := by
      cases L with
      | nil => rfl
      | cons a L2 =>
        rw [hha] at hch
        exact absurd hch.1 (by simp)
    subst hL
    have hInvT := InvO_push_aux0 w st
      ({ future := some c, next_all := none, prev_all := none,
         next_readiness := none, state := QUEUED w ||| 1 } : Node (Comp V E))
      hha (by simpa using hlen)
      (fun i hS => hnon i hS (List.not_mem_nil i)) hid
      rfl rfl rfl (rc_of_queued_or_one w hw)
    have hOE : OwnerEq w (push w st c).1
        ({ st with
          heap := (st.nextId,
            ({ future := some c, next_all := none, prev_all := none,
               next_readiness := none,
               state := QUEUED w ||| 1 } : Node (Comp V E))) :: st.heap,
          nextId := st.nextId + 1,
          head_all := some st.nextId,
          len := st.len + 1 } : St V E) := by
      refine ⟨?_, ?_, ?_, ?_, ?_, ?_, ?_, ?_⟩
      · intro i
        simp only [push, hha]
        exact (OwnerEq_enqueue w _ _).1 i
      · intro i
        simp only [push, hha]
        exact (OwnerEq_enqueue w _ _).2.1 i
      · intro i
        simp only [push, hha]
        exact (OwnerEq_enqueue w _ _).2.2.1 i
      · intro i
        simp only [push, hha]
        exact (OwnerEq_enqueue w _ _).2.2.2.1 i
      · intro i
        simp only [push, hha]
        exact (OwnerEq_enqueue w _ _).2.2.2.2.1 i
      · simp only [push, hha]
        exact (OwnerEq_enqueue w _ _).2.2.2.2.2.1
      · simp only [push, hha]
        rw [(OwnerEq_enqueue w _ _).2.2.2.2.2.2.1]
      · simp only [push, hha]
        exact (OwnerEq_enqueue w _ _).2.2.2.2.2.2.2
    exact ⟨Inv_transfer w _ _ hOE hInvT, hOE.2.2.2.2.2.2.1⟩
  · have hShd : (hfind st.heap hd).isSome := by
      cases L with
      | nil =>
        rw [hha] at hch
        exact absurd (hch : some hd = none) (fun h2 => Option.noConfusion h2)
      | cons a L2 =>
        rw [hha] at hch
        have ha : a = hd := (Option.some.inj hch.1).symm
        subst ha
        exact hch.2.1
    have hhdlt : hd < st.nextId := hid hd hShd
    have hpne : st.nextId ≠ hd := by omega
    obtain ⟨L2, hLeq⟩ : ∃ L2, L = hd :: L2 := by
      cases L with
      | nil =>
        rw [hha] at hch
        exact absurd (hch : some hd = none) (fun h2 => Option.noConfusion h2)
      | cons a L2 =>
        rw [hha] at hch
        exact ⟨L2, by rw [(Option.some.inj hch.1).symm]⟩
    subst hLeq
    rw [hha] at hch
    have hInvT := InvO_push_aux w st hd L2
      ({ future := some c, next_all := some hd, prev_all := none,
         next_readiness := none, state := QUEUED w ||| 1 } : Node (Comp V E))
      ({ getN ((st.nextId, ({ future := some c, next_all := some hd, prev_all := none, next_readiness := none, state := QUEUED w ||| 1 } : Node (Comp V E))) :: st.heap) hd with prev_all := some st.nextId })
      hch hnd hlen hmem hnon hid rfl rfl rfl (rc_of_queued_or_one w hw) rfl
      (by rw [getN, hfind_cons_ne st.heap st.nextId hd _ hpne, ← getN])
      (by rw [getN, hfind_cons_ne st.heap st.nextId hd _ hpne, ← getN])
      (by rw [getN, hfind_cons_ne st.heap st.nextId hd _ hpne, ← getN])
    have hOE : OwnerEq w (push w st c).1
        ({ st with
          heap := hset ((st.nextId, ({ future := some c, next_all := some hd, prev_all := none, next_readiness := none, state := QUEUED w ||| 1 } : Node (Comp V E))) :: st.heap) hd ({ getN ((st.nextId, ({ future := some c, next_all := some hd, prev_all := none, next_readiness := none, state := QUEUED w ||| 1 } : Node (Comp V E))) :: st.heap) hd with prev_all := some st.nextId }),
          nextId := st.nextId + 1,
          head_all := some st.nextId,
          len := st.len + 1 } : St V E) := by
      refine ⟨?_, ?_, ?_, ?_, ?_, ?_, ?_, ?_⟩
      · intro i
        simp only [push, hha]
        exact (OwnerEq_enqueue w _ _).1 i
      · intro i
        simp only [push, hha]
        exact (OwnerEq_enqueue w _ _).2.1 i
      · intro i
        simp only [push, hha]
        exact (OwnerEq_enqueue w _ _).2.2.1 i
      · intro i
        simp only [push, hha]
        exact (OwnerEq_enqueue w _ _).2.2.2.1 i
      · intro i
        simp only [push, hha]
        exact (OwnerEq_enqueue w _ _).2.2.2.2.1 i
      · simp only [push, hha]
        exact (OwnerEq_enqueue w _ _).2.2.2.2.2.1
      · simp only [push, hha]
        rw [(OwnerEq_enqueue w _ _).2.2.2.2.2.2.1]
        rfl
      · simp only [push, hha]
        exact (OwnerEq_enqueue w _ _).2.2.2.2.2.2.2
    exact ⟨Inv_transfer w _ _ hOE hInvT, hOE.2.2.2.2.2.2.1⟩

theorem NChain_splice {V E : Type} (st : St V E) (n : Nat) (B : List Nat) :
    ∀ (A : List Nat) (prev cur : Option Nat),
      NChain st.heap prev cur (A ++ n :: B) →
      (A ++ n :: B).Nodup →
      (∀ pv, prev = some pv → pv ∉ A ++ n :: B) →
      NChain (unlink st n).1.heap prev
        (if A = [] then (getN st.heap n).next_all else cur) (A ++ B) := by
  intro A
  induction A with
  | nil =>
    intro prev cur hch hnd hprev
    have hch2 : NChain st.heap prev cur (n :: B) := hch
    obtain ⟨hcur, hnS, hnP, hrest⟩ := hch2
    show NChain (unlink st n).1.heap prev (getN st.heap n).next_all B
    cases B with
    | nil => exact hrest
    | cons nx B2 =>
      obtain ⟨hnx, hnxS, hnxP, hrest2⟩ := hrest
      have hndn := List.nodup_cons.1 (show (n :: nx :: B2).Nodup from hnd)
      have hnxn : nx ≠ n := fun hh => hndn.1 (by
        rw [← hh]
        exact List.mem_cons_self nx B2)
      have hnpnx : (getN st.heap n).prev_all ≠ some nx := by
        rw [hnP]
        intro hh
        exact hprev nx hh (List.mem_cons_of_mem n (List.mem_cons_self nx B2))
      have hu := unlink_next_node st n nx hnx hnxS hnxn hnpnx
      refine ⟨hnx, ?_, ?_, ?_⟩
      · rw [unlink_isSome]
        exact hnxS
      · rw [hu]
        exact hnP
      · have hnxnext : (getN (unlink st n).1.heap nx).next_all
            = (getN st.heap nx).next_all := by rw [hu]
        rw [hnxnext]
        refine NChain_congr_mem st.heap _ B2 (some nx) _ ?_ hrest2
        intro i hi
        refine unlink_other st n i ?_ ?_ ?_
        · exact fun hh => hndn.1 (by
            rw [← hh]
            exact List.mem_cons_of_mem nx hi)
        · rw [hnx]
          intro hh
          have h2 : nx = i := Option.some.inj hh
          exact (List.nodup_cons.1 hndn.2).1 (by rw [h2]; exact hi)
        · rw [hnP]
          intro hh
          exact hprev i hh
            (List.mem_cons_of_mem n (List.mem_cons_of_mem nx hi))
  | cons a A2 ih =>
    intro prev cur hch hnd hprev
    have hch2 : cur = some a ∧ (hfind st.heap a).isSome = true ∧
        (getN st.heap a).prev_all = prev ∧
        NChain st.heap (some a) (getN st.heap a).next_all (A2 ++ n :: B) := hch
    obtain ⟨hcur, haS, haP, hrest⟩ := hch2
    have hndc : a ∉ A2 ++ n :: B ∧ (A2 ++ n :: B).Nodup :=
      List.nodup_cons.1 (show (a :: (A2 ++ n :: B)).Nodup from hnd)
    have hIH := ih (some a) (getN st.heap a).next_all hrest hndc.2
      (fun pv hpv => by
        have h2 : a = pv := Option.some.inj hpv
        rw [← h2]
        exact hndc.1)
    have hsub := NChain_sub st.heap n B A2 (some a) _ hrest
    have hanen : a ≠ n := fun hh => hndc.1 (by
      rw [hh]
      exact List.mem_append_right A2 (List.mem_cons_self n B))
    have hnnexta : (getN st.heap n).next_all ≠ some a := by
      intro hh
      have h2 := NChain_cur_mem st.heap B (some n)
        (getN st.heap n).next_all hsub.2 a hh
      exact hndc.1 (List.mem_append_right A2 (List.mem_cons_of_mem n h2))
    have hprevmem := NChain_prev_mem st.heap n B A2 (some a)
      (getN st.heap a).next_all hrest
    show NChain (unlink st n).1.heap prev cur ((a :: A2) ++ B)
    rcases hprevmem with ⟨hA2nil, hcurn, hprevn⟩ | ⟨pv, hpvA, hpvP⟩
    · subst hA2nil
      have hu := unlink_prev_node st n a hprevn haS hanen hnnexta
      refine ⟨hcur, ?_, ?_, ?_⟩
      · rw [unlink_isSome]
        exact haS
      · rw [hu]
        exact haP
      · have h2 : (getN (unlink st n).1.heap a).next_all
            = (getN st.heap n).next_all := by rw [hu]
        rw [h2]
        exact hIH
    · have hA2ne : A2 ≠ [] := fun hh => by
        rw [hh] at hpvA
        cases hpvA
      have hapv : (getN st.heap n).prev_all ≠ some a := by
        rw [hpvP]
        intro hh
        have h2 : pv = a := Option.some.inj hh
        exact hndc.1 (by rw [← h2]; exact List.mem_append_left _ hpvA)
      have hfa : hfind (unlink st n).1.heap a = hfind st.heap a :=
        unlink_other st n a hanen hnnexta hapv
      have hga : getN (unlink st n).1.heap a = getN st.heap a := by
        rw [getN, hfa, ← getN]
      rw [if_neg hA2ne] at hIH
      refine ⟨hcur, ?_, ?_, ?_⟩
      · rw [hfa]
        exact haS
      · rw [hga]
        exact haP
      · rw [hga]
        exact hIH

theorem unlink_pres {V E : Type} (st : St V E) (n : Nat) :
    ∀ k, (hfind (unlink st n).1.heap k).isSome = (hfind st.heap k).isSome ∧
      (getN (unlink st n).1.heap k).future = (getN st.heap k).future ∧
      (getN (unlink st n).1.heap k).state = (getN st.heap k).state := by
  intro k
  rcases hnx : (getN st.heap n).next_all with _ | nx <;>
    rcases hpv : (getN st.heap n).prev_all with _ | pv <;>
    simp only [unlink, hnx, hpv, setN_heap]
  · exact ⟨hfind_hset_isSome,
      getN_hset_pres (fun x => x.future) _ _ _ (by rfl) k,
      getN_hset_pres (fun x => x.state) _ _ _ (by rfl) k⟩
  · exact ⟨hfind_hset_isSome.trans hfind_hset_isSome,
      (getN_hset_pres (fun x => x.future) _ _ _ (by rfl) k).trans
        (getN_hset_pres (fun x => x.future) _ _ _ (by rfl) k),
      (getN_hset_pres (fun x => x.state) _ _ _ (by rfl) k).trans
        (getN_hset_pres (fun x => x.state) _ _ _ (by rfl) k)⟩
  · exact ⟨hfind_hset_isSome.trans hfind_hset_isSome,
      (getN_hset_pres (fun x => x.future) _ _ _ (by rfl) k).trans
        (getN_hset_pres (fun x => x.future) _ _ _ (by rfl) k),
      (getN_hset_pres (fun x => x.state) _ _ _ (by rfl) k).trans
        (getN_hset_pres (fun x => x.state) _ _ _ (by rfl) k)⟩
  · exact ⟨(hfind_hset_isSome.trans hfind_hset_isSome).trans hfind_hset_isSome,
      ((getN_hset_pres (fun x => x.future) _ _ _ (by rfl) k).trans
        (getN_hset_pres (fun x => x.future) _ _ _ (by rfl) k)).trans
        (getN_hset_pres (fun x => x.future) _ _ _ (by rfl) k),
      ((getN_hset_pres (fun x => x.state) _ _ _ (by rfl) k).trans
        (getN_hset_pres (fun x => x.state) _ _ _ (by rfl) k)).trans
        (getN_hset_pres (fun x => x.state) _ _ _ (by rfl) k)⟩

theorem InvO_complete {V E : Type} (w : Nat) (hw : 1 < w) (st : St V E)
    (n : Nat) (L : List Nat)
    (hch : NChain st.heap none st.head_all L)
    (hnd : L.Nodup)
    (hmem : ∀ i, i ∈ L → (getN st.heap i).future.isSome = true ∧
      (getN st.heap i).state &&& NOT_QUEUED w = 1)
    (hnon : ∀ i, (hfind st.heap i).isSome → i ∉ L →
      (getN st.heap i).next_all = none ∧ (getN st.heap i).prev_all = none ∧
      (getN st.heap i).future = none)
    (hid : ∀ i, (hfind st.heap i).isSome → i < st.nextId)
    (hn : n ∈ L)
    (hlen : st.len + 1 = L.length) :
    ∀ q, release_node w st n = Except.ok q → InvO w q.1 ∧ q.1.len = st.len := by
  obtain ⟨A, B, hAB⟩ := List.append_of_mem hn
  subst hAB
  have hsub := NChain_sub st.heap n B A none st.head_all hch
  have hnS : (hfind st.heap n).isSome := hsub.1
  have hmemn := hmem n hn
  have hndparts := List.nodup_append.1 hnd
  have hnB : n ∉ B := (List.nodup_cons.1 hndparts.2.1).1
  have hnA : n ∉ A := fun hh =>
    hndparts.2.2 hh (List.mem_cons_self n B)
  have hnn : (getN st.heap n).next_all ≠ some n := by
    intro hh
    exact hnB (NChain_cur_mem st.heap B (some n) _ hsub.2 n hh)
  have hpnL := NChain_prev_mem st.heap n B A none st.head_all hch
  have hpn : (getN st.heap n).prev_all ≠ some n := by
    rcases hpnL with ⟨h1, h2, hP⟩ | ⟨pv, hpvA, hP⟩
    · rw [hP]
      exact fun hh => Option.noConfusion hh
    · rw [hP]
      intro hh
      exact hnA ((Option.some.inj hh) ▸ hpvA)
  have hst2 : setN (setN st n
        { getN st.heap n with state := (getN st.heap n).state ||| QUEUED w }) n
      { getN (setN st n
          { getN st.heap n with
            state := (getN st.heap n).state ||| QUEUED w }).heap n with
        future := none }
      = setN st n { getN st.heap n with
          state := (getN st.heap n).state ||| QUEUED w, future := none } := by
    simp only [setN, setN_heap]
    rw [hset_hset, getN_hset_self hnS]
  set Ast : St V E := setN st n { getN st.heap n with
      state := (getN st.heap n).state ||| QUEUED w, future := none } with hAst
  have hAS : ∀ i, (hfind Ast.heap i).isSome = (hfind st.heap i).isSome := by
    intro i
    rw [hAst, setN_heap, hfind_hset_isSome]
  have hgAn : getN Ast.heap n
      = { getN st.heap n with
          state := (getN st.heap n).state ||| QUEUED w, future := none } := by
    rw [hAst, setN_heap]
    exact getN_hset_self hnS
  have hgAi : ∀ i, i ≠ n → getN Ast.heap i = getN st.heap i := by
    intro i hi
    rw [hAst, setN_heap]
    exact getN_hset_ne hi
  have hchA : NChain Ast.heap none Ast.head_all (A ++ n :: B) := by
    refine NChain_congr_fields st.heap Ast.heap hAS ?_ ?_ (A ++ n :: B)
      none st.head_all hch
    · intro i
      rw [hAst, setN_heap]
      exact getN_hset_pres (fun x => x.next_all) st.heap n _ (by rfl) i
    · intro i
      rw [hAst, setN_heap]
      exact getN_hset_pres (fun x => x.prev_all) st.heap n _ (by rfl) i
  have hup := unlink_pres Ast n
  have hspl := NChain_splice Ast n B A none Ast.head_all hchA hnd
    (fun pv hpv => Option.noConfusion hpv)
  have hchP : NChain (unlink Ast n).1.heap none (unlink Ast n).1.head_all
      (A ++ B) := by
    rcases hpnL with ⟨hAnil, hcur, hP⟩ | ⟨pv, hpvA, hP⟩
    · subst hAnil
      have hh := unlink_head_all_of_prev_none Ast n (by rw [hgAn]; exact hP)
      rw [hh]
      exact hspl
    · have hAne : A ≠ [] := fun hh2 => by
        rw [hh2] at hpvA
        cases hpvA
      have hh := unlink_head_all_of_prev_some Ast n pv (by rw [hgAn]; exact hP)
      rw [hh]
      rw [if_neg hAne] at hspl
      exact hspl
  have hlenP : (unlink Ast n).1.len = st.len := by
    rw [(unlink_fields Ast n).2.2.1]
    rfl
  have hnextIdP : (unlink Ast n).1.nextId = st.nextId := by
    rw [(unlink_fields Ast n).2.2.2.1]
    rfl
  have hmemP2 : ∀ i, i ∈ A ++ B →
      (getN (unlink Ast n).1.heap i).future.isSome = true ∧
      (getN (unlink Ast n).1.heap i).state &&& NOT_QUEUED w = 1 := by
    intro i hi
    have hin : i ≠ n := by
      intro hh
      subst hh
      rcases List.mem_append.1 hi with h2 | h2
      · exact hnA h2
      · exact hnB h2
    have hiL : i ∈ A ++ n :: B := by
      rcases List.mem_append.1 hi with h2 | h2
      · exact List.mem_append_left _ h2
      · exact List.mem_append_right _ (List.mem_cons_of_mem n h2)
    have h3 := hmem i hiL
    constructor
    · rw [(hup i).2.1, hgAi i hin]
      exact h3.1
    · rw [(hup i).2.2, hgAi i hin]
      exact h3.2
  have hselfP := unlink_self Ast n (by rw [hAS n]; exact hnS)
    (by rw [hgAn]; exact hnn) (by rw [hgAn]; exact hpn)
  have hfutPn : (getN (unlink Ast n).1.heap n).future = none := by
    rw [hselfP, hgAn]
  have hnonP : ∀ i, (hfind (unlink Ast n).1.heap i).isSome → i ∉ A ++ B →
      (getN (unlink Ast n).1.heap i).next_all = none ∧
      (getN (unlink Ast n).1.heap i).prev_all = none ∧
      (getN (unlink Ast n).1.heap i).future = none := by
    intro i hS hi
    by_cases hin : i = n
    · subst hin
      refine ⟨?_, ?_, hfutPn⟩
      · rw [hselfP]
      · rw [hselfP]
    · have hiL : i ∉ A ++ n :: B := by
        intro hmm
        rcases List.mem_append.1 hmm with h2 | h2
        · exact hi (List.mem_append_left _ h2)
        · rcases List.mem_cons.1 h2 with h3 | h3
          · exact hin h3
          · exact hi (List.mem_append_right _ h3)
      have hS2 : (hfind st.heap i).isSome := by
        rw [(hup i).1, hAS i] at hS
        exact hS
      have h3 := hnon i hS2 hiL
      have hnxni : (getN Ast.heap n).next_all ≠ some i := by
        rw [hgAn]
        intro hh
        have h4 := NChain_cur_mem st.heap B (some n) _ hsub.2 i hh
        exact hiL (List.mem_append_right _ (List.mem_cons_of_mem n h4))
      have hpvni : (getN Ast.heap n).prev_all ≠ some i := by
        rw [hgAn]
        rcases hpnL with ⟨h4, h5, hP⟩ | ⟨pv, hpvA, hP⟩
        · rw [hP]
          exact fun hh => Option.noConfusion hh
        · rw [hP]
          intro hh
          exact hiL (List.mem_append_left _ ((Option.some.inj hh) ▸ hpvA))
      have hfi : hfind (unlink Ast n).1.heap i = hfind Ast.heap i :=
        unlink_other Ast n i hin hnxni hpvni
      have hgi : getN (unlink Ast n).1.heap i = getN st.heap i := by
        rw [getN, hfi, ← getN, hgAi i hin]
      rw [hgi]
      exact h3
  have hidP : ∀ i, (hfind (unlink Ast n).1.heap i).isSome →
      i < (unlink Ast n).1.nextId := by
    intro i hS
    rw [hnextIdP]
    apply hid
    rw [(hup i).1, hAS i] at hS
    exact hS
  have hndAB : (A ++ B).Nodup := by
    refine List.nodup_append.2 ⟨hndparts.1, (List.nodup_cons.1 hndparts.2.1).2, ?_⟩
    intro a ha hb
    exact hndparts.2.2 ha (List.mem_cons_of_mem n hb)
  have hlenAB : (A ++ B).length = st.len := by
    have h1 : (A ++ n :: B).length = A.length + (B.length + 1) := by
      rw [List.length_append, List.length_cons]
    have h2 : (A ++ B).length = A.length + B.length := List.length_append A B
    omega
  intro q hq
  simp only [release_node] at hq
  rw [hst2] at hq
  by_cases hflag : (getN st.heap n).state &&& QUEUED w = 0
  · rw [if_pos hflag] at hq
    have hrcP : (getN (unlink Ast n).1.heap n).state &&& NOT_QUEUED w = 1 := by
      rw [(hup n).2.2, hgAn]
      show ((getN st.heap n).state ||| QUEUED w) &&& NOT_QUEUED w = 1
      rw [rc_of_or w (by omega)]
      exact hmemn.2
    have hnSP : (hfind (unlink Ast n).1.heap n).isSome := by
      rw [(hup n).1, hAS n]
      exact hnS
    have hrel := (release_spec w (unlink Ast n).1 n hnSP).2.2 hrcP hfutPn
    rw [hrel] at hq
    cases hq
    constructor
    · refine ⟨A ++ B, ?_, hndAB, ?_, ?_, ?_, ?_⟩
      · refine NChain_congr_mem (unlink Ast n).1.heap _ (A ++ B) none _ ?_ hchP
        intro i hi
        have hin : i ≠ n := by
          intro hh
          subst hh
          rcases List.mem_append.1 hi with h2 | h2
          · exact hnA h2
          · exact hnB h2
        show hfind (hremove (unlink Ast n).1.heap n) i = _
        rw [hfind_hremove, if_neg hin]
      · show (unlink Ast n).1.len = (A ++ B).length
        rw [hlenP, hlenAB]
      · intro i hi
        have hin : i ≠ n := by
          intro hh
          subst hh
          rcases List.mem_append.1 hi with h2 | h2
          · exact hnA h2
          · exact hnB h2
        have hg : getN (hremove (unlink Ast n).1.heap n) i
            = getN (unlink Ast n).1.heap i := by
          rw [getN, hfind_hremove, if_neg hin, ← getN]
        show (getN (hremove (unlink Ast n).1.heap n) i).future.isSome = true ∧ _
        rw [hg]
        exact hmemP2 i hi
      · intro i hS hi
        have hin : i ≠ n := by
          intro hh
          subst hh
          rw [hfind_hremove, if_pos rfl] at hS
          cases hS
        have hS2 : (hfind (unlink Ast n).1.heap i).isSome := by
          rw [hfind_hremove, if_neg hin] at hS
          exact hS
        have hg : getN (hremove (unlink Ast n).1.heap n) i
            = getN (unlink Ast n).1.heap i := by
          rw [getN, hfind_hremove, if_neg hin, ← getN]
        show (getN (hremove (unlink Ast n).1.heap n) i).next_all = none ∧ _ ∧ _
        rw [hg]
        exact hnonP i hS2 hi
      · intro i hS
        by_cases hin : i = n
        · subst hin
          rw [hfind_hremove, if_pos rfl] at hS
          cases hS
        · have hS2 : (hfind (unlink Ast n).1.heap i).isSome := by
            rw [hfind_hremove, if_neg hin] at hS
            exact hS
          exact hidP i hS2
    · exact hlenP
  · rw [if_neg hflag] at hq
    cases hq
    constructor
    · refine ⟨A ++ B, hchP, hndAB, ?_, hmemP2, hnonP, hidP⟩
      rw [hlenP, hlenAB]
    · exact hlenP

theorem hremove_of_missing {F : Type} {h : Heap F} {i : Nat}
    (hx : hfind h i = none) : hremove h i = h := by
  induction h with
  | nil => rfl
  | cons p t ih =>
    have hpi : p.1 ≠ i := by
      intro hh
      have : hfind (p :: t) i = some p.2 := by
        show (if p.1 = i then some p.2 else hfind t i) = some p.2
        rw [if_pos hh]
      rw [this] at hx
      cases hx
    have hxt : hfind t i = none := by
      have : hfind (p :: t) i = hfind t i := by
        show (if p.1 = i then some p.2 else hfind t i) = hfind t i
        rw [if_neg hpi]
      rw [← this]
      exact hx
    show (if p.1 = i then hremove t i else (p.1, p.2) :: hremove t i) = p :: t
    rw [if_neg hpi, ih hxt]

theorem InvO_release_stale {V E : Type} (w : Nat) (st : St V E) (n : Nat)
    (hInv : InvO w st) (hfut : (getN st.heap n).future = none) :
    ∀ q, release w st n = Except.ok q → InvO w q.1 := by
  intro q hq
  by_cases hfS : (hfind st.heap n).isSome
  · obtain ⟨L, hch, hnd, hlen, hmem, hnon, hid⟩ := hInv
    have hnL : n ∉ L := by
      intro hmm
      have h2 := (hmem n hmm).1
      rw [hfut] at h2
      cases h2
    have hspec := release_spec w st n hfS
    by_cases hrc : (getN st.heap n).state &&& NOT_QUEUED w = 1
    · rw [hspec.2.2 hrc hfut] at hq
      cases hq
      refine ⟨L, ?_, hnd, hlen, ?_, ?_, ?_⟩
      · refine NChain_congr_mem st.heap _ L none _ ?_ hch
        intro i hi
        have hin : i ≠ n := fun hh => hnL (by rw [← hh]; exact hi)
        show hfind (hremove st.heap n) i = _
        rw [hfind_hremove, if_neg hin]
      · intro i hi
        have hin : i ≠ n := fun hh => hnL (by rw [← hh]; exact hi)
        have hg : getN (hremove st.heap n) i = getN st.heap i := by
          rw [getN, hfind_hremove, if_neg hin, ← getN]
        show (getN (hremove st.heap n) i).future.isSome = true ∧
          (getN (hremove st.heap n) i).state &&& NOT_QUEUED w = 1
        rw [hg]
        exact hmem i hi
      · intro i hS hi
        have hin : i ≠ n := by
          intro hh
          subst hh
          rw [hfind_hremove, if_pos rfl] at hS
          cases hS
        have hS2 : (hfind st.heap i).isSome := by
          rw [hfind_hremove, if_neg hin] at hS
          exact hS
        have hg : getN (hremove st.heap n) i = getN st.heap i := by
          rw [getN, hfind_hremove, if_neg hin, ← getN]
        show (getN (hremove st.heap n) i).next_all = none ∧
          (getN (hremove st.heap n) i).prev_all = none ∧
          (getN (hremove st.heap n) i).future = none
        rw [hg]
        exact hnon i hS2 hi
      · intro i hS
        by_cases hin : i = n
        · subst hin
          rw [hfind_hremove, if_pos rfl] at hS
          cases hS
        · have hS2 : (hfind st.heap i).isSome := by
            rw [hfind_hremove, if_neg hin] at hS
            exact hS
          exact hid i hS2
    · rw [hspec.1 hrc] at hq
      cases hq
      have hgi : ∀ i, i ≠ n → getN (setN st n
          { getN st.heap n with
            state := ((getN st.heap n).state + USIZE_MAX w) % 2 ^ w }).heap i
          = getN st.heap i := by
        intro i hin
        rw [setN_heap]
        exact getN_hset_ne hin
      have hgn : getN (setN st n
          { getN st.heap n with
            state := ((getN st.heap n).state + USIZE_MAX w) % 2 ^ w }).heap n
          = { getN st.heap n with
              state := ((getN st.heap n).state + USIZE_MAX w) % 2 ^ w } := by
        rw [setN_heap]
        exact getN_hset_self hfS
      refine ⟨L, ?_, hnd, hlen, ?_, ?_, ?_⟩
      · refine NChain_congr_fields st.heap _ ?_ ?_ ?_ L none _ hch
        · intro i
          rw [setN_heap]
          exact hfind_hset_isSome
        · intro i
          rw [setN_heap]
          exact getN_hset_pres (fun x => x.next_all) st.heap n _ (by rfl) i
        · intro i
          rw [setN_heap]
          exact getN_hset_pres (fun x => x.prev_all) st.heap n _ (by rfl) i
      · intro i hi
        have hin : i ≠ n := fun hh => hnL (by rw [← hh]; exact hi)
        rw [hgi i hin]
        exact hmem i hi
      · intro i hS hi
        have hS2 : (hfind st.heap i).isSome := by
          rw [setN_heap, hfind_hset_isSome] at hS
          exact hS
        by_cases hin : i = n
        · have hold := hnon i hS2 hi
          rw [hin, hgn]
          rw [hin] at hold
          exact ⟨hold.1, hold.2.1, hold.2.2⟩
        · rw [hgi i hin]
          exact hnon i hS2 hi
      · intro i hS
        have hS2 : (hfind st.heap i).isSome := by
          rw [setN_heap, hfind_hset_isSome] at hS
          exact hS
        exact hid i hS2
  · have hmiss : hfind st.heap n = none := by
      cases hm : hfind st.heap n with
      | none => rfl
      | some x => rw [hm] at hfS; exact absurd rfl hfS
    simp only [release, setN_heap] at hq
    split at hq
    · cases hq
      refine Inv_transfer w _ _ ?_ hInv
      exact OwnerEq_of_fields w _ _ (hset_of_missing hmiss) rfl rfl rfl
    · split at hq
      · cases hq
      · cases hq
        refine Inv_transfer w _ _ ?_ hInv
        refine OwnerEq_of_fields w _ _ ?_ rfl rfl rfl
        show hremove (hset st.heap n _) n = st.heap
        rw [hset_of_missing hmiss]
        exact hremove_of_missing hmiss

theorem OwnerEq_notify_if {V E : Type} (w : Nat) (hw0 : 0 < w)
    (st3 st1 : St V E) (n : Nat) (b : Bool) (h3 : OwnerEq w st3 st1) :
    OwnerEq w (if b = true then notify w st3 n else (st3, ([] : List Ev))).1
      st1 := by
  cases b with
  | false =>
    rw [if_neg Bool.false_ne_true]
    exact h3
  | true =>
    rw [if_pos rfl]
    exact OwnerEq_trans w _ _ _ (OwnerEq_notify w hw0 st3 n) h3

theorem OwnerEq_ST3 {V E : Type} (w : Nat) (hw0 : 0 < w) (st1 : St V E)
    (n : Nat) (c k : Comp V E) (hfut : (getN st1.heap n).future = some c) :
    OwnerEq w (setN (setN st1 n
      { getN st1.heap n with
        state := (getN st1.heap n).state &&& NOT_QUEUED w }) n
      { getN (setN st1 n
          { getN st1.heap n with
            state := (getN st1.heap n).state &&& NOT_QUEUED w }).heap n with
        future := some k }) st1 ∧
    (getN (setN (setN st1 n
      { getN st1.heap n with
        state := (getN st1.heap n).state &&& NOT_QUEUED w }) n
      { getN (setN st1 n
          { getN st1.heap n with
            state := (getN st1.heap n).state &&& NOT_QUEUED w }).heap n with
        future := some k }).heap n).future = some k := by
  have hnS1 : (hfind st1.heap n).isSome := by
    cases hm : hfind st1.heap n with
    | none =>
      rw [getN, hm] at hfut
      cases hfut
    | some x => rfl
  have hOE2 : OwnerEq w (setN st1 n
      { getN st1.heap n with
        state := (getN st1.heap n).state &&& NOT_QUEUED w }) st1 :=
    OwnerEq_setN w st1 n _ rfl rfl rfl (rc_of_and_not w hw0 _)
  have hfut2 : (getN (setN st1 n
      { getN st1.heap n with
        state := (getN st1.heap n).state &&& NOT_QUEUED w }).heap n).future
      = some c := by
    rw [setN_heap, getN_hset_self hnS1]
    exact hfut
  have hnS2 : (hfind (setN st1 n
      { getN st1.heap n with
        state := (getN st1.heap n).state &&& NOT_QUEUED w }).heap n).isSome := by
    rw [setN_heap, hfind_hset_isSome]
    exact hnS1
  have hOE3 : OwnerEq w (setN (setN st1 n
      { getN st1.heap n with
        state := (getN st1.heap n).state &&& NOT_QUEUED w }) n
      { getN (setN st1 n
          { getN st1.heap n with
            state := (getN st1.heap n).state &&& NOT_QUEUED w }).heap n with
        future := some k })
      (setN st1 n
        { getN st1.heap n with
          state := (getN st1.heap n).state &&& NOT_QUEUED w }) :=
    OwnerEq_setN w _ n _ rfl rfl (by rw [hfut2]; rfl) rfl
  refine ⟨OwnerEq_trans w _ _ _ hOE3 hOE2, ?_⟩
  rw [setN_heap, getN_hset_self hnS2]

theorem pollIter_complete_aux {V E : Type} (w : Nat) (hw : 1 < w)
    (st1 P : St V E) (n : Nat)
    (hOEP : OwnerEq w P st1)
    (hInv1 : InvO w st1)
    (hfutP : (getN P.heap n).future.isSome = true) :
    ∀ q, release_node w { P with len := P.len - 1 } n = Except.ok q →
      InvO w q.1 ∧ q.1.len + 1 = st1.len := by
  intro q hq
  have hInvP : InvO w P := Inv_transfer w _ _ hOEP hInv1
  obtain ⟨L1, hch1, hnd1, hlen1, hmem1, hnon1, hid1⟩ := hInvP
  have hSP : (hfind P.heap n).isSome := by
    cases hm : hfind P.heap n with
    | none =>
      rw [getN, hm] at hfutP
      cases hfutP
    | some x => rfl
  have hnL1 : n ∈ L1 := by
    by_contra hmm
    have h4 := (hnon1 n hSP hmm).2.2
    rw [h4] at hfutP
    cases hfutP
  have hpos : 0 < L1.length := List.length_pos.2 (List.ne_nil_of_mem hnL1)
  have hlen5 : ({ P with len := P.len - 1 } : St V E).len + 1 = L1.length := by
    show P.len - 1 + 1 = L1.length
    omega
  have hcomp := InvO_complete w hw { P with len := P.len - 1 } n L1 hch1 hnd1
    hmem1 hnon1 hid1 hnL1 hlen5 q hq
  refine ⟨hcomp.1, ?_⟩
  have h5 : q.1.len = P.len - 1 := hcomp.2
  have h6 : P.len = st1.len := hOEP.2.2.2.2.2.2.1
  have h7 : P.len = L1.length := hlen1
  omega

theorem notify_if_future {V E : Type} (w : Nat) (hw0 : 0 < w) (st3 : St V E)
    (n : Nat) (b : Bool) (k : Comp V E)
    (hf : (getN st3.heap n).future = some k) :
    (getN (if b = true then notify w st3 n
      else (st3, ([] : List Ev))).1.heap n).future.isSome = true := by
  have h4 := (OwnerEq_notify_if w hw0 st3 st3 n b (OwnerEq_refl w st3)).2.2.2.1 n
  rw [h4, hf]
  rfl

def lenRel {V E : Type} (r : Option (PRes V E)) (a b : Nat) : Prop :=
  match r with
  | some (PRes.ready (some _)) => a + 1 = b
  | some (PRes.err _) => a + 1 = b
  | _ => a = b

theorem pollIter_inv {V E : Type} (w : Nat) (hw : 1 < w) (st st2 : St V E)
    (evs : List Ev) (r : Option (PRes V E))
    (hInv : InvO w st)
    (h : pollIter w st = Except.ok (st2, evs, r)) :
    InvO w st2 ∧
    lenRel r st2.len st.len := by
  simp only [pollIter] at h
  split at h
  · rename_i st1 hdq
    have hOE : OwnerEq w st1 st := by
      have h2 := OwnerEq_dequeue w st
      rw [hdq] at h2
      exact h2
    split at h
    · cases h
      exact ⟨Inv_transfer w _ _ hOE hInv, hOE.2.2.2.2.2.2.1⟩
    · cases h
      exact ⟨Inv_transfer w _ _ hOE hInv, hOE.2.2.2.2.2.2.1⟩
  · rename_i st1 hdq
    have hOE : OwnerEq w st1 st := by
      have h2 := OwnerEq_dequeue w st
      rw [hdq] at h2
      exact h2
    cases h
    exact ⟨Inv_transfer w _ _ hOE hInv, hOE.2.2.2.2.2.2.1⟩
  · rename_i st1 n hdq
    have hOE : OwnerEq w st1 st := by
      have h2 := OwnerEq_dequeue w st
      rw [hdq] at h2
      exact h2
    have hInv1 : InvO w st1 := Inv_transfer w _ _ hOE hInv
    split at h
    · rename_i hfut
      split at h
      · split at h
        · rename_i q2 hrel
          cases h
          refine ⟨InvO_release_stale w st1 n hInv1 hfut q2 hrel, ?_⟩
          show q2.1.len = st.len
      -- release preserves len, dequeue preserves len
          have h5 := release_len w st1 n q2.1 q2.2 hrel
          exact h5.trans hOE.2.2.2.2.2.2.1
        · cases h
      · cases h
    · rename_i c hfut
      split at h
      · rename_i hflag
        have hst3 := OwnerEq_ST3 w (by omega) st1 n c (compPoll c).2.1 hfut
        have hOEP := OwnerEq_notify_if w (by omega) _ st1 n (compPoll c).2.2
          hst3.1
        have hfutP := notify_if_future w (show 0 < w by omega) _ n
          (compPoll c).2.2 (compPoll c).2.1 hst3.2
        split at h
        · cases h
          refine ⟨Inv_transfer w _ _ hOEP hInv1, ?_⟩
          show _ = st.len
          exact hOEP.2.2.2.2.2.2.1.trans hOE.2.2.2.2.2.2.1
        · rename_i v hre
          split at h
          · rename_i q2 hrelnode
            cases h
            have hfin := pollIter_complete_aux w hw st1 _ n hOEP hInv1 hfutP
              q2 hrelnode
            refine ⟨hfin.1, ?_⟩
            show q2.1.len + 1 = st.len
            rw [← hOE.2.2.2.2.2.2.1]
            exact hfin.2
          · cases h
        · rename_i e hre
          split at h
          · rename_i q2 hrelnode
            cases h
            have hfin := pollIter_complete_aux w hw st1 _ n hOEP hInv1 hfutP
              q2 hrelnode
            refine ⟨hfin.1, ?_⟩
            show q2.1.len + 1 = st.len
            rw [← hOE.2.2.2.2.2.2.1]
            exact hfin.2
          · cases h
      · cases h

theorem pollLoop_inv {V E : Type} (w : Nat) (hw : 1 < w) :
    ∀ (fuel : Nat) (st st2 : St V E) (evs : List Ev) (r : Option (PRes V E)),
      InvO w st → pollLoop w fuel st = Except.ok (st2, evs, r) →
      InvO w st2 ∧
      lenRel r st2.len st.len := by
  intro fuel
  induction fuel with
  | zero =>
    intro st st2 evs r hInv h
    cases h
    exact ⟨hInv, rfl⟩
  | succ f ih =>
    intro st st2 evs r hInv h
    simp only [pollLoop] at h
    split at h
    · rename_i st1 evs1 r1 hit
      cases h
      exact pollIter_inv w hw st _ _ _ hInv hit
    · rename_i st1 evs1 hit
      split at h
      · rename_i stz evs2 rz hloop
        cases h
        have h1 := pollIter_inv w hw st st1 evs1 none hInv hit
        have h2 := ih st1 _ _ _ h1.1 hloop
        have h3 : st1.len = st.len := h1.2
        refine ⟨h2.1, ?_⟩
        rcases r with _ | pr
        · show st2.len = st.len
          exact (h2.2 : st2.len = st1.len).trans h3
        · rcases pr with ov | _ | e
          · rcases ov with _ | v
            · show st2.len = st.len
              exact (h2.2 : st2.len = st1.len).trans h3
            · show st2.len + 1 = st.len
              rw [← h3]
              exact h2.2
          · show st2.len = st.len
            exact (h2.2 : st2.len = st1.len).trans h3
          · show st2.len + 1 = st.len
            rw [← h3]
            exact h2.2
      · cases h
    · cases h

theorem poll_inv {V E : Type} (w : Nat) (hw : 1 < w) (fuel : Nat)
    (st st2 : St V E) (evs : List Ev) (r : Option (PRes V E))
    (hInv : InvO w st) (h : poll w fuel st = Except.ok (st2, evs, r)) :
    InvO w st2 ∧
    lenRel r st2.len st.len := by
  simp only [poll] at h
  split at h
  · rename_i st1 evs1 r1 hloop
    cases h
    exact pollLoop_inv w hw fuel st _ _ _ hInv hloop
  · cases h

theorem runSP_inv {V E : Type} (w : Nat) (hw : 1 < w) :
    ∀ (σ : List (SPOp V E)) (st0 st : St V E), InvO w st0 →
      List.foldlM (runSPOp w) st0 σ = Except.ok st → InvO w st := by
  intro σ
  induction σ with
  | nil =>
    intro st0 st h0 h
    cases h
    exact h0
  | cons a l ih =>
    intro st0 st h0 h
    rw [List.foldlM_cons] at h
    cases hop : runSPOp w st0 a with
    | error m =>
      rw [hop] at h
      cases h
    | ok st1 =>
      rw [hop] at h
      refine ih st1 st ?_ h
      cases a with
      | push c =>
        simp only [runSPOp] at hop
        cases hop
        exact (InvO_push w hw st0 c h0).1
      | poll fuel =>
        simp only [runSPOp] at hop
        split at hop
        · rename_i st1b evs1 r1 hp
          cases hop
          exact (poll_inv w hw fuel st0 _ _ _ h0 hp).1
        · cases hop

/-- **C7.** After any sequence of submit and poll operations starting
from a freshly created collection, `len` equals the number of owner-set
nodes reachable from `head_all` along the `next_all` links (conjunct 1);
a submission adds exactly one reachable node and increments `len`
(conjunct 2); completion or error of a polled computation removes
exactly one reachable node and decrements `len` (conjuncts 3 and 4); and
an iteration that only skips work - a stale entry, an inconsistent or
empty queue, or a computation that is not ready - changes neither
(conjunct 5). -/
theorem C7_len_owner {V E : Type} (w : Nat) (hw : 1 < w)
    (σ : List (SPOp V E)) (st : St V E)
    (hrun : runSP w σ = Except.ok st) :
    st.len = (ownerList st).length ∧
    (∀ c, (push w st c).1.len = st.len + 1 ∧
      (ownerList (push w st c).1).length = (ownerList st).length + 1) ∧
    (∀ st2 evs v,
      pollIter w st = Except.ok (st2, evs, some (PRes.ready (some v))) →
      st2.len + 1 = st.len ∧
      (ownerList st2).length + 1 = (ownerList st).length) ∧
    (∀ st2 evs e, pollIter w st = Except.ok (st2, evs, some (PRes.err e)) →
      st2.len + 1 = st.len ∧
      (ownerList st2).length + 1 = (ownerList st).length) ∧
    (∀ st2 evs, pollIter w st = Except.ok (st2, evs, none) →
      st2.len = st.len ∧ (ownerList st2).length = (ownerList st).length) := by
  have hI : InvO w st := runSP_inv w hw σ (newFU w V E) st (InvO_newFU w) hrun
  have hlenO : ∀ s : St V E, InvO w s → s.len = (ownerList s).length := by
    intro s hs
    obtain ⟨L, hch, hnd, hlen, h4, h5, h6⟩ := hs
    rw [ownerList_of_NChain s L hch hnd]
    exact hlen
  refine ⟨hlenO st hI, ?_, ?_, ?_, ?_⟩
  · intro c
    have hp := InvO_push w hw st c hI
    refine ⟨hp.2, ?_⟩
    rw [← hlenO _ hp.1, ← hlenO st hI, hp.2]
  · intro st2 evs v hpi
    have h2 := pollIter_inv w hw st st2 evs _ hI hpi
    have h3 : st2.len + 1 = st.len := h2.2
    refine ⟨h3, ?_⟩
    rw [← hlenO _ h2.1, ← hlenO st hI]
    exact h3
  · intro st2 evs e hpi
    have h2 := pollIter_inv w hw st st2 evs _ hI hpi
    have h3 : st2.len + 1 = st.len := h2.2
    refine ⟨h3, ?_⟩
    rw [← hlenO _ h2.1, ← hlenO st hI]
    exact h3
  · intro st2 evs hpi
    have h2 := pollIter_inv w hw st st2 evs _ hI hpi
    have h3 : st2.len = st.len := h2.2
    refine ⟨h3, ?_⟩
    rw [← hlenO _ h2.1, ← hlenO st hI]
    exact h3

/-- Closed instance of `C7_len_owner`: after one submission the length
is the owner-set size, and completing that computation removes the one
reachable node and decrements the length. -/
theorem C7_witness :
    ((push 4 (newFU 4 Nat Nat) (Comp.ready false 7)).1.len
      = (ownerList (push 4 (newFU 4 Nat Nat) (Comp.ready false 7)).1).length) ∧
    (∃ st2 evs, pollIter 4 (push 4 (newFU 4 Nat Nat) (Comp.ready false 7)).1
        = Except.ok (st2, evs, some (PRes.ready (some 7))) ∧
      st2.len + 1 = (push 4 (newFU 4 Nat Nat) (Comp.ready false 7)).1.len ∧
      (ownerList st2).length + 1
        = (ownerList (push 4 (newFU 4 Nat Nat) (Comp.ready false 7)).1).length) := by
  have h := C7_len_owner 4 (by decide)
    ([SPOp.push (Comp.ready false 7)] : List (SPOp Nat Nat))
    ((push 4 (newFU 4 Nat Nat) (Comp.ready false 7)).1) rfl
  refine ⟨h.1, ?_⟩
  rcases hP : pollIter 4 (push 4 (newFU 4 Nat Nat) (Comp.ready false 7)).1
    with m | p
  · rcases pollIter_error_msg 4 _ m hP with h1 | h1 <;> rw [h1] at hP <;>
      exact absurd hP (by decide)
  · rcases p with ⟨a, b, rr⟩
    have hrr : rr = some (PRes.ready (some 7)) := by
      have h2 : (match pollIter 4
          (push 4 (newFU 4 Nat Nat) (Comp.ready false 7)).1 with
        | Except.ok q => q.2.2
        | Except.error _ => none) = some (PRes.ready (some 7)) := by decide
      rw [hP] at h2
      exact h2
    subst hrr
    have h3 := h.2.2.1 a b 7 hP
    exact ⟨a, b, rfl, h3.1, h3.2⟩
